import Mathlib

/-!
Verification development for the timetable generator of HorariosIPBejaMVC.

The embedded program is `generate_lp_file` in
`src/wwwroot/Scripts/geradorHorarios.py`: a first-fit greedy allocation of
course sections (turmas) to rooms (salas) and contiguous period blocks,
followed by emission of an LP model (objective, per-placement constraints,
global constraints, binary declarations).

Conventions of the embedding:
* pandas columns become `List Nat` / `List Turma` in table row order;
* `dict(zip(ks, vs))` lookups become `dictLast` (in a Python dict built by
  `zip`, the last binding of a key wins);
* Python dicts used as mutable maps (`sala_periodos_ocupados`,
  `docente_periodo_vars`, ...) become association lists with exact dict
  semantics: in-place value replacement for existing keys, new keys appended
  at the end (insertion order);
* `sorted(xs)` becomes `List.insertionSort`; `series.unique()` becomes
  `dedupF` (first-occurrence deduplication, as in pandas);
* CPython leaves the enumeration order of `list(set(xs))` implementation
  defined (it depends on the hash table layout).  The embedding therefore
  takes the realized enumeration as an explicit parameter
  `enum : List Nat → List Nat`, applied to the filtered room list, exactly
  where the source computes `list(set(...))`;
* Python's decimal rendering of an `int` inside an f-string becomes
  `natRepr` (fuel-based, structurally recursive, hence kernel computable).
-/

namespace Horarios

/-- Decimal digit characters, as produced by Python's `str`/f-string
formatting of a nonnegative integer. -/
def digitChr : Nat → Char
  | 0 => '0' | 1 => '1' | 2 => '2' | 3 => '3' | 4 => '4'
  | 5 => '5' | 6 => '6' | 7 => '7' | 8 => '8' | _ => '9'

/-- Fuel-based decimal rendering of a natural number (most significant digit
first).  With fuel `n + 1` this renders `n` completely. -/
def natReprAux : Nat → Nat → List Char
  | 0, _ => []
  | fuel + 1, n =>
    if n < 10 then [digitChr n]
    else natReprAux fuel (n / 10) ++ [digitChr (n % 10)]

/-- Decimal rendering of a natural number, the embedding of Python's
`f"{int(n)}"`. -/
def natRepr (n : Nat) : String := ⟨natReprAux (n + 1) n⟩

/-- One row of the `turmas` table handed to `generate_lp_file` (columns
`id`, `unidade_curricular_id`, `docente_id`, `tipo_aula_id`, `duracao`,
`turma_label_id`). -/
structure Turma where
  id : Nat
  uc : Nat
  docente : Nat
  tipoAula : Nat
  duracao : Nat
  label : Nat
deriving DecidableEq

/-- The input relations read from the pickle file by `generate_lp_file`:
`turmas`, `salas['id']`, `periodos['id']`, `uc_sala`,
`indisponibilidade_docente` and `unidades_curriculares[['id','semestre']]`. -/
structure Input where
  turmas : List Turma
  salas : List Nat
  periodos : List Nat
  ucSala : List (Nat × Nat)
  indisponibilidadeDocente : List (Nat × Nat)
  ucSemestre : List (Nat × Nat)

/-- Lookup in a Python dict built by `dict(zip(keys, vals))`: the last
binding of a key wins. -/
def dictLast (l : List (Nat × Nat)) (k : Nat) : Option Nat :=
  (l.reverse.find? (fun pr => pr.1 == k)).map (·.2)

/-- First-occurrence deduplication, the embedding of pandas
`Series.unique()`. -/
def dedupF {α : Type} [DecidableEq α] (l : List α) : List α :=
  l.foldl (fun acc x => if x ∈ acc then acc else acc ++ [x]) []

/-- `turma_id → column` pairs of the `turmas` table, used to embed the
`dict(zip(turmas['id'], turmas[col]))` dictionaries. -/
def turmaPairs (input : Input) (f : Turma → Nat) : List (Nat × Nat) :=
  input.turmas.map (fun x => (x.id, f x))

/-- `turma_docente.get(turma_id)`.  `generate_lp_file` only queries ids
drawn from `turmas['id']`, where the lookup succeeds; the total default `0`
is never observable. -/
def turmaDocente (input : Input) (t : Nat) : Nat :=
  (dictLast (turmaPairs input (·.docente)) t).getD 0

/-- `turma_duracao.get(turma_id)` (same totalization note as
`turmaDocente`). -/
def turmaDuracao (input : Input) (t : Nat) : Nat :=
  (dictLast (turmaPairs input (·.duracao)) t).getD 0

/-- `turma_tipo[turma_id]` (same totalization note as `turmaDocente`). -/
def turmaTipo (input : Input) (t : Nat) : Nat :=
  (dictLast (turmaPairs input (·.tipoAula)) t).getD 0

/-- `turma_uc.get(turma_id)` / `turma_uc[...]` (same totalization note as
`turmaDocente`). -/
def turmaUc (input : Input) (t : Nat) : Nat :=
  (dictLast (turmaPairs input (·.uc)) t).getD 0

/-- `turma_label.get(turma_id, 0)`. -/
def turmaLabel (input : Input) (t : Nat) : Nat :=
  (dictLast (turmaPairs input (·.label)) t).getD 0

/-- `uc_semestre.get(uc_id, None)` where
`uc_semestre = dict(zip(unidades_curriculares['id'], ...['semestre']))`. -/
def ucSemestreOf (input : Input) (uc : Nat) : Option Nat :=
  dictLast input.ucSemestre uc

/-- `turma_set = sorted(turmas['id'].unique())`. -/
def turmaSet (input : Input) : List Nat :=
  List.insertionSort (· ≤ ·) (dedupF (input.turmas.map (·.id)))

/-- `periodos_ordenados = sorted(periodos['id'].unique())`. -/
def periodosOrdenados (input : Input) : List Nat :=
  List.insertionSort (· ≤ ·) (dedupF input.periodos)

/-- `periodos['id'].unique()` as iterated (unsorted) by the global
restriction pass. -/
def periodosUnique (input : Input) : List Nat := dedupF input.periodos

/-- `turma_sala[turma_id] = list(set(uc_sala[uc_sala['unidade_curricular_id']
== turma_uc[turma_id]]['sala_id']))`; `enum` is the realized (implementation
defined) enumeration order of the Python set. -/
def salasPermitidas (enum : List Nat → List Nat) (input : Input) (t : Nat) :
    List Nat :=
  enum ((input.ucSala.filter (fun pr => pr.1 == turmaUc input t)).map (·.2))

/-- `I_d_turma[turma_id]`: the unavailable periods of the section's
teacher. -/
def indispOf (input : Input) (d : Nat) : List Nat :=
  (input.indisponibilidadeDocente.filter (fun pr => pr.1 == d)).map (·.2)

/-- The hardcoded `restricoes_entre_ucs` table (curricular-unit mutual
exclusion); a unit absent from the dict maps to `[]`. -/
def restricoesEntreUcs (uc : Nat) : List Nat :=
  if uc = 3 then [5]
  else if uc = 5 then [3]
  else if uc = 11 then [13, 14, 15]
  else if uc = 13 then [11]
  else if uc = 14 then [11]
  else if uc = 15 then [11]
  else if uc = 22 then [23]
  else if uc = 23 then [22]
  else []

/-- `turmas[turmas['unidade_curricular_id'] == uc]['id'].tolist()`. -/
def turmasOfUc (input : Input) (uc : Nat) : List Nat :=
  (input.turmas.filter (fun x => x.uc == uc)).map (·.id)

/-! ### Python dict operations (association lists with dict semantics) -/

/-- `d[k] = v` on a Python dict: replace in place if the key exists,
otherwise append at the end (insertion order). -/
def dinsert (m : List ((Nat × Nat) × Nat)) (k : Nat × Nat) (v : Nat) :
    List ((Nat × Nat) × Nat) :=
  if m.any (fun e => e.1 == k) then
    m.map (fun e => if e.1 == k then (k, v) else e)
  else m ++ [(k, v)]

/-- `k in d` on a Python dict. -/
def dmem (m : List ((Nat × Nat) × Nat)) (k : Nat × Nat) : Bool :=
  m.any (fun e => e.1 == k)

/-- `d[k]` / `d.get(k)` on a Python dict. -/
def dget? (m : List ((Nat × Nat) × Nat)) (k : Nat × Nat) : Option Nat :=
  (m.find? (fun e => e.1 == k)).map (·.2)

/-- `d.setdefault(k, []).append(v)` on a dict of lists. -/
def pvAppend (m : List ((Nat × Nat) × List String)) (k : Nat × Nat)
    (v : String) : List ((Nat × Nat) × List String) :=
  if m.any (fun e => e.1 == k) then
    m.map (fun e => if e.1 == k then (e.1, e.2 ++ [v]) else e)
  else m ++ [(k, [v])]

/-- `s.add(v)` on a Python set, modelled as an append-if-absent list (the
set is only ever iterated after a final `sorted`, so only membership and
the underlying set of elements are observable). -/
def addVar (l : List String) (v : String) : List String :=
  if v ∈ l then l else l ++ [v]

/-! ### Variable and constraint text -/

/-- Decision variable name `x{turma}_{sala}_{periodo}`. -/
def xVar (t s p : Nat) : String :=
  "x" ++ natRepr t ++ "_" ++ natRepr s ++ "_" ++ natRepr p

/-- Room-usage indicator name `z_{sala}`. -/
def zVar (s : Nat) : String := "z_" ++ natRepr s

/-- `" + ".join(vs)`. -/
def joinPlus : List String → String
  | [] => ""
  | v :: rest => rest.foldl (fun a b => a ++ " + " ++ b) v

/-- A constraint line `name: body\n`, the shape of every constraint written
by `generate_lp_file`. -/
def mkLine (name bodyS : String) : String := name ++ ": " ++ bodyS ++ "\n"

/-- Name of a continuity constraint `cont_{var1}_{var2}`. -/
def contName (v1 v2 : String) : String := "cont_" ++ v1 ++ "_" ++ v2

/-- `f"cont_{var_start}_{var}: {var_start} - {var} = 0\n"`. -/
def contLine (v1 v2 : String) : String :=
  mkLine (contName v1 v2) (v1 ++ " - " ++ v2 ++ " = 0")

/-- Name of the full-allocation constraint `turma_{t}_agendada`. -/
def agendadaName (t : Nat) : String := "turma_" ++ natRepr t ++ "_agendada"

/-- `f"turma_{t}_agendada: " + " + ".join(vs) + f" = {duracao}\n"`. -/
def agendadaLine (t d : Nat) (vs : List String) : String :=
  mkLine (agendadaName t) (joinPlus vs ++ " = " ++ natRepr d)

/-- Name of the room-usage linkage constraint
`sala_{s}_uso_para_turma_{t}`. -/
def salaUsoName (s t : Nat) : String :=
  "sala_" ++ natRepr s ++ "_uso_para_turma_" ++ natRepr t

/-- `f"sala_{s}_uso_para_turma_{t}: " + " + ".join(vs) +
f" - {d} z_{s} <= 0\n"`. -/
def salaUsoLine (s t d : Nat) (vs : List String) : String :=
  mkLine (salaUsoName s t)
    (joinPlus vs ++ " - " ++ natRepr d ++ " z_" ++ natRepr s ++ " <= 0")

/-- Name of a global exclusion constraint
`restricao_UC{a}_UC{b}_periodo_{p}`. -/
def restricaoName (a b p : Nat) : String :=
  "restricao_UC" ++ natRepr a ++ "_UC" ++ natRepr b ++ "_periodo_" ++
    natRepr p

/-- Name of a type-ordering constraint `ordem_uc_{uc}_turma_{e}_{l}`. -/
def ordemName (uc e l : Nat) : String :=
  "ordem_uc_" ++ natRepr uc ++ "_turma_" ++ natRepr e ++ "_" ++ natRepr l

/-- `f"ordem_uc_{uc}_turma_{e}_{l}: end_{e} - start_{l} <= -1\n"`. -/
def ordemLine (uc e l : Nat) : String :=
  mkLine (ordemName uc e l)
    ("end_" ++ natRepr e ++ " - start_" ++ natRepr l ++ " <= -1")

/-- Name of a teacher no-double-booking constraint
`docente_{d}_periodo_{p}_conflito`. -/
def docConfName (d p : Nat) : String :=
  "docente_" ++ natRepr d ++ "_periodo_" ++ natRepr p ++ "_conflito"

/-- Name of a room no-double-booking constraint
`sala_{s}_periodo_{p}_conflito`. -/
def salaConfName (s p : Nat) : String :=
  "sala_" ++ natRepr s ++ "_periodo_" ++ natRepr p ++ "_conflito"

/-! ### Mutable state of the allocation pass -/

/-- The mutable structures of `generate_lp_file` during the per-section
pass: the occupancy dicts, the conflict-variable dicts, the `variables` set,
the `written_constraints` set, the constraint lines written so far into the
`Subject To` section, and the commit log (each successful allocation,
mirroring the `Turma ... agendada na sala ... nos períodos ...` commit). -/
structure SState where
  salaOcc : List ((Nat × Nat) × Nat) := []
  docOcc : List ((Nat × Nat) × Nat) := []
  docPV : List ((Nat × Nat) × List String) := []
  salaPV : List ((Nat × Nat) × List String) := []
  vars : List String := []
  written : List String := []
  body : List String := []
  placements : List (Nat × Nat × List Nat) := []
deriving DecidableEq

/-! ### Candidate checks (lines 156-209 of geradorHorarios.py) -/

/-- `periodos_ordenados[start:start + duracao]`. -/
def windowAt (P : List Nat) (s d : Nat) : List Nat := (P.drop s).take d

/-- `range(len(periodos_ordenados) - duracao + 1)` with Python's signed
arithmetic: empty when `d > n`. -/
def startIdxs (n d : Nat) : List Nat :=
  if d ≤ n then List.range (n - d + 1) else []

/-- `all(seq[i] + 1 == seq[i+1] for i in range(len - 1))`: the window is a
run of consecutive period ids. -/
def consec : List Nat → Bool
  | a :: b :: rest => (a + 1 == b) && consec (b :: rest)
  | _ => true

/-- The room-occupancy / teacher-unavailability / teacher-occupancy
rejection of lines 164-167. -/
def basicFreeFail (input : Input) (st : SState) (docente sala : Nat)
    (seq : List Nat) : Bool :=
  seq.any (fun p => dmem st.salaOcc (sala, p)) ||
  seq.any (fun p => (indispOf input docente).contains p) ||
  seq.any (fun p => dmem st.docOcc (docente, p))

/-- The semester-conflict scan of lines 171-181: some period of the window
is occupied (in any room) by a section whose curricular unit has semester
`semAtual`. -/
def semConflict (input : Input) (st : SState) (semAtual : Nat)
    (seq : List Nat) : Bool :=
  seq.any (fun p =>
    ((st.salaOcc.filter (fun e => e.1.2 == p)).map (·.2)).any (fun tA =>
      match dictLast (turmaPairs input (·.uc)) tA with
      | none => false
      | some ucA => dictLast input.ucSemestre ucA == some semAtual))

/-- The semester-exclusivity rejection (lines 170-189): only sections with
`label_id == 1` are subject to the semester-conflict scan. -/
def semRejects (input : Input) (st : SState) (semAtual label : Nat)
    (seq : List Nat) : Bool :=
  label == 1 && semConflict input st semAtual seq

/-- The curricular-unit mutual-exclusion rejection of lines 192-209: some
restricted unit has a section occupying (in some room of `salas['id']`)
some period of the window. -/
def ucConflict (input : Input) (st : SState) (ucId : Nat)
    (seq : List Nat) : Bool :=
  (restricoesEntreUcs ucId).any (fun ucR =>
    (turmasOfUc input ucR).any (fun tR =>
      seq.any (fun p =>
        input.salas.any (fun sR => dget? st.salaOcc (sR, p) == some tR))))

/-- All checks a candidate `(sala, window)` must survive to be committed
(lines 160-209), in source order. -/
def survives (input : Input) (st : SState) (t semAtual : Nat)
    (c : Nat × List Nat) : Bool :=
  !basicFreeFail input st (turmaDocente input t) c.1 c.2 &&
  !semRejects input st semAtual (turmaLabel input t) c.2 &&
  !ucConflict input st (turmaUc input t) c.2

/-! ### Commit (lines 212-250) -/

/-- One iteration of the `for period_id in sequencia_periodos` commit loop:
register the variable and mark the room and teacher busy. -/
def commitPeriodo (t sala docente : Nat) (st : SState) (p : Nat) : SState :=
  let v := xVar t sala p
  { st with
    vars := addVar st.vars v
    salaOcc := dinsert st.salaOcc (sala, p) t
    docOcc := dinsert st.docOcc (docente, p) t
    docPV := pvAppend st.docPV (docente, p) v
    salaPV := pvAppend st.salaPV (sala, p) v }

/-- `if line not in written_constraints: lp_file.write(line);
written_constraints.add(line)`. -/
def writeIfNew (st : SState) (line : String) : SState :=
  if line ∈ st.written then st
  else { st with body := st.body ++ [line], written := st.written ++ [line] }

/-- The whole commit block (lines 212-250): per-period registration, the
continuity constraints, the full-allocation constraint, the room-usage
linkage constraint, and the commit record. -/
def commit (st : SState) (t sala docente duracao : Nat)
    (seq : List Nat) : SState :=
  let st1 := seq.foldl (commitPeriodo t sala docente) st
  let ucVars := seq.map (fun p => xVar t sala p)
  let st2 :=
    match ucVars with
    | [] => st1
    | v0 :: rest => rest.foldl (fun s v => writeIfNew s (contLine v0 v)) st1
  let st3 :=
    match ucVars with
    | [] => st2
    | v0 :: rest =>
      let stA := writeIfNew st2 (agendadaLine t duracao (v0 :: rest))
      writeIfNew stA (salaUsoLine sala t duracao (v0 :: rest))
  { st3 with placements := st3.placements ++ [(t, sala, seq)] }

/-! ### First-fit search (lines 149-253) -/

/-- The inner `for start_period_index in range(...)` loop: the first window
that is consecutive and survives every check, if any. -/
def tryStarts (input : Input) (st : SState) (t semAtual sala : Nat) :
    List Nat → Option (List Nat)
  | [] => none
  | s :: rest =>
    let seq := windowAt (periodosOrdenados input) s (turmaDuracao input t)
    if !consec seq then tryStarts input st t semAtual sala rest
    else if basicFreeFail input st (turmaDocente input t) sala seq then
      tryStarts input st t semAtual sala rest
    else if semRejects input st semAtual (turmaLabel input t) seq then
      tryStarts input st t semAtual sala rest
    else if ucConflict input st (turmaUc input t) seq then
      tryStarts input st t semAtual sala rest
    else some seq

/-- The outer `for sala_id in salas_permitidas` loop: first room (in the
realized set-enumeration order) admitting a surviving window. -/
def trySalas (input : Input) (st : SState) (t semAtual : Nat) :
    List Nat → Option (Nat × List Nat)
  | [] => none
  | sala :: rest =>
    match tryStarts input st t semAtual sala
        (startIdxs (periodosOrdenados input).length (turmaDuracao input t))
    with
    | some seq => some (sala, seq)
    | none => trySalas input st t semAtual rest

/-- The outcome of the first-fit search for one section: `none` when no
room/window combination survives. -/
def allocTurma (input : Input) (enum : List Nat → List Nat) (st : SState)
    (t semAtual : Nat) : Option (Nat × List Nat) :=
  trySalas input st t semAtual (salasPermitidas enum input t)

/-- Processing of one section (lines 128-261): skip when the semester is
unknown or no room is eligible; otherwise run the first-fit search and
commit its result, if any.  The search mutates nothing before the commit,
so search-then-commit is the imperative loop verbatim. -/
def processTurma (input : Input) (enum : List Nat → List Nat) (st : SState)
    (t : Nat) : SState :=
  match ucSemestreOf input (turmaUc input t) with
  | none => st
  | some semAtual =>
    if (salasPermitidas enum input t).isEmpty then st
    else
      match allocTurma input enum st t semAtual with
      | none => st
      | some c =>
        commit st t c.1 (turmaDocente input t) (turmaDuracao input t) c.2

/-- The whole per-section pass over `turma_set`. -/
def runState (input : Input) (enum : List Nat → List Nat) : SState :=
  (turmaSet input).foldl (processTurma input enum) {}

/-! ### Global constraints (lines 263-332) -/

/-- The five hardcoded exclusion pairs of the global pass, in emission
order. -/
def restricaoPairs : List (Nat × Nat) :=
  [(3, 5), (11, 13), (11, 14), (11, 15), (22, 23)]

/-- `[f"x{t}_{s}_{p}" for t in turmas_uc for s in salas['id']]`. -/
def restricaoVarsFor (input : Input) (uc p : Nat) : List String :=
  (turmasOfUc input uc).flatMap (fun t => input.salas.map (fun s => xVar t s p))

/-- The global exclusion lines written for one period, in source order
(lines 288-311). -/
def restricaoLinesAt (input : Input) (p : Nat) : List String :=
  restricaoPairs.flatMap (fun ab =>
    let va := restricaoVarsFor input ab.1 p
    let vb := restricaoVarsFor input ab.2 p
    if va.isEmpty && vb.isEmpty then []
    else [mkLine (restricaoName ab.1 ab.2 p) (joinPlus (va ++ vb) ++ " <= 1")])

/-- `turmas['id']` in first-occurrence order: the key order of the
`dict(zip(turmas['id'], ...))` dictionaries. -/
def turmaIdsOrder (input : Input) : List Nat :=
  dedupF (input.turmas.map (·.id))

/-- Key order of `uc_groups` (first occurrence of each unit along
`turma_uc.items()`). -/
def ucOrder (input : Input) : List Nat :=
  dedupF ((turmaIdsOrder input).map (turmaUc input))

/-- `uc_groups[uc]['early']`: sections of the unit with `tipo_aula_id` in
`[1, 2]`, in `turma_uc.items()` order.  (The imperative build appends each
turma id to exactly one bucket while scanning `turma_uc.items()`, which is
this filter.) -/
def earlyOf (input : Input) (uc : Nat) : List Nat :=
  (turmaIdsOrder input).filter (fun t =>
    turmaUc input t == uc &&
      (turmaTipo input t == 1 || turmaTipo input t == 2))

/-- `uc_groups[uc]['late']`: the remaining sections of the unit. -/
def lateOf (input : Input) (uc : Nat) : List Nat :=
  (turmaIdsOrder input).filter (fun t =>
    turmaUc input t == uc &&
      !(turmaTipo input t == 1 || turmaTipo input t == 2))

/-- The type-ordering lines of lines 313-317. -/
def ordemLines (input : Input) : List String :=
  (ucOrder input).flatMap (fun uc =>
    (earlyOf input uc).flatMap (fun e =>
      (lateOf input uc).map (fun l => ordemLine uc e l)))

/-- `int(var.split('_')[0][1:])`: the turma id encoded in a decision
variable name (Python's `int` on the digit prefix). -/
def varTurma (v : String) : Nat :=
  ((v.data.drop 1).takeWhile (fun c => !(c == '_'))).foldl
    (fun a c => a * 10 + (c.toNat - 48)) 0

/-- The no-double-booking lines of lines 319-332 for one conflict dict
(`docente_periodo_vars` or `sala_periodo_vars`). -/
def confLinesOf (input : Input) (nameOfKey : Nat × Nat → String)
    (m : List ((Nat × Nat) × List String)) : List String :=
  m.flatMap (fun e =>
    if e.2.length > 1 then
      let filt := e.2.filter (fun v =>
        !(turmaUc input (varTurma v) == 24 || turmaUc input (varTurma v) == 25))
      if filt.length > 1 then [mkLine (nameOfKey e.1) (joinPlus filt ++ " <= 1")]
      else []
    else [])

/-! ### Assembled output -/

/-- All constraint lines of the emitted `Subject To` section, in write
order: the per-placement lines of the greedy pass, then the global
exclusion lines, the type-ordering lines, and the two no-double-booking
passes. -/
def bodyAll (input : Input) (enum : List Nat → List Nat) : List String :=
  (runState input enum).body ++
  (periodosUnique input).flatMap (restricaoLinesAt input) ++
  ordemLines input ++
  confLinesOf input (fun k => docConfName k.1 k.2) (runState input enum).docPV ++
  confLinesOf input (fun k => salaConfName k.1 k.2) (runState input enum).salaPV

/-- Code-point comparison of strings (Python's `<` on `str`), kernel
computable. -/
def strLtL : List Char → List Char → Bool
  | [], [] => false
  | [], _ :: _ => true
  | _ :: _, [] => false
  | a :: as, b :: bs =>
    if a.toNat < b.toNat then true
    else if b.toNat < a.toNat then false
    else strLtL as bs

/-- Total order used to embed Python's `sorted` on strings. -/
def strLe (a b : String) : Prop := strLtL b.data a.data = false

instance : DecidableRel strLe :=
  fun a b => inferInstanceAs (Decidable (strLtL b.data a.data = false))

/-- The names declared in the `Binary` section (lines 336-340):
`sorted(variables)` then `sorted(z_variables)`. -/
def binaryDecls (input : Input) (enum : List Nat → List Nat) : List String :=
  List.insertionSort strLe (runState input enum).vars ++
  List.insertionSort strLe (dedupF (input.salas.map zVar))

/-- The objective line (line 103). -/
def objLine (input : Input) : String :=
  "Minimize\n obj: " ++ joinPlus (input.salas.map zVar) ++ "\n"

/-- The full emitted LP text. -/
def lpFile (input : Input) (enum : List Nat → List Nat) : String :=
  objLine input ++ "\nSubject To\n" ++
  String.join (bodyAll input enum) ++
  "\nBinary\n" ++
  String.join ((binaryDecls input enum).map (fun v => " " ++ v ++ "\n")) ++
  "End\n"

/-! ### Proof-layer definitions -/

/-- Decimal value of a digit string (the value recovered by Python's `int`
on it). -/
def lcVal (l : List Char) : Nat :=
  l.foldl (fun a c => a * 10 + (c.toNat - 48)) 0

/-- The first character, if any, is not a decimal digit.  Marks the places
where a rendered number must end inside a composite name. -/
def ndHead : List Char → Prop
  | [] => True
  | c :: _ => c.isDigit = false

instance : ∀ l, Decidable (ndHead l)
  | [] => isTrue trivial
  | c :: _ => inferInstanceAs (Decidable (c.isDigit = false))

/-- The constraint lines the commit block writes for a block `seq` of
section `t` in room `sala` (empty for an empty block). -/
def groupLines (t sala duracao : Nat) (seq : List Nat) : List String :=
  match seq.map (fun p => xVar t sala p) with
  | [] => []
  | v0 :: rest =>
    rest.map (contLine v0) ++
      [agendadaLine t duracao (v0 :: rest),
       salaUsoLine sala t duracao (v0 :: rest)]

/-- The constraint lines the commit block writes for one placement. -/
def plLines (input : Input) (pl : Nat × Nat × List Nat) : List String :=
  groupLines pl.1 pl.2.1 (turmaDuracao input pl.1) pl.2.2

/-- The constraint name of an emitted line: the text before the first
colon. -/
def nameOf (line : String) : String :=
  ⟨line.data.takeWhile (fun c => !(c == ':'))⟩

/-- The candidate sequence the first-fit search scans for one section:
every eligible room (in realized enumeration order) paired with every
contiguous window of the section's duration (in ascending start order). -/
def candidates (input : Input) (enum : List Nat → List Nat) (t : Nat) :
    List (Nat × List Nat) :=
  (salasPermitidas enum input t).flatMap (fun sala =>
    (((startIdxs (periodosOrdenados input).length (turmaDuracao input t)).map
        (fun s => windowAt (periodosOrdenados input) s (turmaDuracao input t))).filter
      consec).map (fun seq => (sala, seq)))

/-- No character of the string is a colon (true of every constraint name,
so the name of a line is recoverable as the text before the first
colon). -/
def colonFree (s : String) : Prop := ∀ c ∈ s.data, (c == ':') = false

instance (s : String) : Decidable (colonFree s) :=
  inferInstanceAs (Decidable (∀ c ∈ s.data, (c == ':') = false))

/-- `d.get(k)` on the conflict-variable dicts. -/
def pvGet? (m : List ((Nat × Nat) × List String)) (k : Nat × Nat) :
    Option (List String) :=
  (m.find? (fun e => e.1 == k)).map (·.2)

/-- The state invariant of the per-section pass, parameterized by the ids
already processed.  It characterizes the occupancy dicts, the conflict
dicts, the variable set and the written constraint lines in terms of the
commit log. -/
structure Inv (input : Input) (processed : List Nat) (st : SState) : Prop
    where
  plProc : ∀ pl ∈ st.placements, pl.1 ∈ processed
  plT : (st.placements.map (fun pl => pl.1)).Nodup
  plGood : ∀ pl ∈ st.placements, consec pl.2.2 = true ∧
    pl.2.2.length = turmaDuracao input pl.1
  salaOccC : ∀ s p v, dget? st.salaOcc (s, p) = some v ↔
    ∃ pl ∈ st.placements, pl.1 = v ∧ pl.2.1 = s ∧ p ∈ pl.2.2
  docOccC : ∀ d p v, dget? st.docOcc (d, p) = some v ↔
    ∃ pl ∈ st.placements, pl.1 = v ∧ turmaDocente input pl.1 = d ∧
      p ∈ pl.2.2
  varsC : ∀ v, v ∈ st.vars ↔
    ∃ pl ∈ st.placements, ∃ p ∈ pl.2.2, v = xVar pl.1 pl.2.1 p
  varsN : st.vars.Nodup
  pvDoc : ∀ e ∈ st.docPV, e.2.length ≤ 1 ∧ dmem st.docOcc e.1 = true
  pvSala : ∀ e ∈ st.salaPV, e.2.length ≤ 1 ∧ dmem st.salaOcc e.1 = true
  bodyC : st.body = st.placements.flatMap (plLines input)
  writtenC : ∀ l, l ∈ st.written ↔ l ∈ st.body

/-- Mutual-exclusion soundness of the commit log: placements of units
listed against each other in `restricoes_entre_ucs` never share a
period. -/
def ExclInv (input : Input) (st : SState) : Prop :=
  ∀ pl₁ ∈ st.placements, ∀ pl₂ ∈ st.placements,
    turmaUc input pl₂.1 ∈ restricoesEntreUcs (turmaUc input pl₁.1) →
    ∀ p ∈ pl₁.2.2, p ∉ pl₂.2.2

/-- All committed rooms occur in the `salas` table. -/
def RoomsIn (input : Input) (st : SState) : Prop :=
  ∀ pl ∈ st.placements, pl.2.1 ∈ input.salas

/-! ### Concrete inputs for witnesses and counterexamples -/

/-- One section (id 1, unit 4, teacher 7, duration 2, label 2), one room
(10) eligible for the unit, periods 1-3: the basic feasible scenario. -/
def inpA : Input :=
  { turmas := [⟨1, 4, 7, 1, 2, 2⟩], salas := [10], periodos := [1, 2, 3],
    ucSala := [(4, 10)], indisponibilidadeDocente := [],
    ucSemestre := [(4, 1)] }

/-- Like `inpA` but the teacher is unavailable at period 2, so no window of
length 2 survives and the section stays unplaced. -/
def inpFail : Input :=
  { turmas := [⟨1, 4, 7, 1, 2, 2⟩], salas := [10], periodos := [1, 2, 3],
    ucSala := [(4, 10)], indisponibilidadeDocente := [(7, 2)],
    ucSemestre := [(4, 1)] }

/-- Mutual-exclusion counterexample input: unit 5's only eligible room (99)
is absent from the `salas` table, so the cross-unit scan (which only looks
at rooms of `salas['id']`) cannot see its placement, and unit 3 lands on
the same period. -/
def inpX : Input :=
  { turmas := [⟨1, 5, 7, 1, 1, 2⟩, ⟨2, 3, 8, 1, 1, 2⟩],
    salas := [1], periodos := [1],
    ucSala := [(5, 99), (3, 1)], indisponibilidadeDocente := [],
    ucSemestre := [(3, 1), (5, 2)] }

/-- Room-order input: unit 4 may use rooms 1 and 8 (`uc_sala` rows in this
order), both free; which room the greedy pass picks depends only on the
realized set-enumeration order. -/
def inpOrd : Input :=
  { turmas := [⟨1, 4, 7, 1, 1, 2⟩], salas := [1, 8], periodos := [1],
    ucSala := [(4, 1), (4, 8)], indisponibilidadeDocente := [],
    ucSemestre := [(4, 1)] }

/-- Undeclared-variable input: one section of unit 3 placed in room 1 of
two rooms; the global exclusion constraint for the pair (3, 5) references
the never-created variable of room 2. -/
def inpU : Input :=
  { turmas := [⟨1, 3, 7, 1, 1, 2⟩], salas := [1, 2], periodos := [1],
    ucSala := [(3, 1)], indisponibilidadeDocente := [],
    ucSemestre := [(3, 1)] }

/-! ### Decimal rendering: correctness and injectivity -/

theorem lcVal_append (a : List Char) (c : Char) :
    lcVal (a ++ [c]) = lcVal a * 10 + (c.toNat - 48) := by
  simp [lcVal, List.foldl_append]

theorem natReprAux_val : ∀ fuel n, n < fuel → lcVal (natReprAux fuel n) = n := by
  intro fuel
  induction fuel with
  | zero => intro n h; omega
  | succ f ih =>
    intro n h
    rw [natReprAux]
    split
    · rename_i h10
      interval_cases n <;> decide
    · rename_i h10
      have hn : 0 < n := by omega
      have hdiv : n / 10 < n := Nat.div_lt_self hn (by omega)
      rw [lcVal_append, ih (n / 10) (by omega)]
      have hm : n % 10 < 10 := Nat.mod_lt _ (by omega)
      have : (digitChr (n % 10)).toNat - 48 = n % 10 := by
        generalize hq : n % 10 = q at hm ⊢
        interval_cases q <;> decide
      rw [this]
      omega

theorem natRepr_data_inj {m n : Nat}
    (h : (natRepr m).data = (natRepr n).data) : m = n := by
  have hm := natReprAux_val (m + 1) m (Nat.lt_succ_self m)
  have hn := natReprAux_val (n + 1) n (Nat.lt_succ_self n)
  have : lcVal (natReprAux (m + 1) m) = lcVal (natReprAux (n + 1) n) := by
    have h' : natReprAux (m + 1) m = natReprAux (n + 1) n := h
    rw [h']
  omega

theorem natRepr_inj {m n : Nat} (h : natRepr m = natRepr n) : m = n :=
  natRepr_data_inj (congrArg String.data h)

theorem natRepr_digits : ∀ fuel n, ∀ c ∈ natReprAux fuel n, c.isDigit = true := by
  intro fuel
  induction fuel with
  | zero => intro n c hc; simp [natReprAux] at hc
  | succ f ih =>
    intro n c hc
    rw [natReprAux] at hc
    split at hc
    · rename_i h10
      simp at hc
      subst hc
      interval_cases n <;> decide
    · rename_i h10
      rcases List.mem_append.1 hc with h1 | h2
      · exact ih _ _ h1
      · simp at h2
        subst h2
        have hm : n % 10 < 10 := Nat.mod_lt _ (by omega)
        generalize hq : n % 10 = q at hm ⊢
        interval_cases q <;> decide

theorem digits_split : ∀ (a : List Char) {c b d : List Char},
    (∀ x ∈ a, x.isDigit = true) → (∀ x ∈ c, x.isDigit = true) →
    ndHead b → ndHead d → a ++ b = c ++ d → a = c ∧ b = d := by
  intro a
  induction a with
  | nil =>
    intro c b d _ hc hb hd h
    cases c with
    | nil => exact ⟨rfl, h⟩
    | cons x c' =>
      exfalso
      simp at h
      have hx : x.isDigit = true := hc x (by simp)
      rw [h] at hb
      simp [ndHead] at hb
      rw [hb] at hx
      cases hx
  | cons y a' ih =>
    intro c b d ha hc hb hd h
    cases c with
    | nil =>
      exfalso
      simp at h
      have hy : y.isDigit = true := ha y (by simp)
      rw [← h] at hd
      simp [ndHead] at hd
      rw [hd] at hy
      cases hy
    | cons x c' =>
      simp at h
      obtain ⟨rfl, h2⟩ := h
      obtain ⟨h3, h4⟩ := ih (fun z hz => ha z (by simp [hz]))
        (fun z hz => hc z (by simp [hz])) hb hd h2
      exact ⟨by rw [h3], h4⟩

theorem natRepr_split {m n : Nat} {b d : List Char} (hb : ndHead b)
    (hd : ndHead d)
    (h : (natRepr m).data ++ b = (natRepr n).data ++ d) : m = n ∧ b = d := by
  obtain ⟨h1, h2⟩ := digits_split (natRepr m).data
    (fun x hx => natRepr_digits (m + 1) m x hx)
    (fun x hx => natRepr_digits (n + 1) n x hx) hb hd h
  exact ⟨natRepr_data_inj h1, h2⟩

theorem ndHead_cons {c : Char} (l : List Char) (h : c.isDigit = false) :
    ndHead (c :: l) := h

/-! ### Name injectivity -/

theorem xVar_inj {t s p t' s' p' : Nat} (h : xVar t s p = xVar t' s' p') :
    t = t' ∧ s = s' ∧ p = p' := by
  have hd := congrArg String.data h
  simp only [xVar, String.data_append, List.append_assoc,
    show "x".data = ['x'] from rfl, show "_".data = ['_'] from rfl,
    List.cons_append, List.nil_append, List.cons.injEq, true_and] at hd
  obtain ⟨ht, hd2⟩ := natRepr_split (ndHead_cons _ (by decide))
    (ndHead_cons _ (by decide)) hd
  simp only [List.cons.injEq, true_and] at hd2
  obtain ⟨hs, hd3⟩ := natRepr_split (ndHead_cons _ (by decide))
    (ndHead_cons _ (by decide)) hd2
  simp only [List.cons.injEq, true_and] at hd3
  exact ⟨ht, hs, natRepr_data_inj hd3⟩

theorem zVar_inj {s s' : Nat} (h : zVar s = zVar s') : s = s' := by
  have hd := congrArg String.data h
  simp only [zVar, String.data_append, show "z_".data = ['z', '_'] from rfl,
    List.cons_append, List.nil_append, List.cons.injEq, true_and] at hd
  exact natRepr_data_inj hd

theorem xVar_ne_zVar (t s p s' : Nat) : xVar t s p ≠ zVar s' := by
  intro h
  have hd := congrArg String.data h
  simp only [xVar, zVar, String.data_append,
    show "x".data = ['x'] from rfl, show "z_".data = ['z', '_'] from rfl,
    List.cons_append, List.nil_append, List.append_assoc,
    List.cons.injEq] at hd
  exact absurd hd.1 (by decide)

theorem agendadaName_inj {t t' : Nat}
    (h : agendadaName t = agendadaName t') : t = t' := by
  have hd := congrArg String.data h
  simp only [agendadaName, String.data_append, List.append_assoc,
    show "turma_".data = ['t', 'u', 'r', 'm', 'a', '_'] from rfl,
    show "_agendada".data =
      ['_', 'a', 'g', 'e', 'n', 'd', 'a', 'd', 'a'] from rfl,
    List.cons_append, List.nil_append, List.cons.injEq, true_and] at hd
  exact (natRepr_split (ndHead_cons _ (by decide))
    (ndHead_cons _ (by decide)) hd).1

theorem salaUsoName_inj {s t s' t' : Nat}
    (h : salaUsoName s t = salaUsoName s' t') : s = s' ∧ t = t' := by
  have hd := congrArg String.data h
  simp only [salaUsoName, String.data_append, List.append_assoc,
    show "sala_".data = ['s', 'a', 'l', 'a', '_'] from rfl,
    show "_uso_para_turma_".data =
      ['_', 'u', 's', 'o', '_', 'p', 'a', 'r', 'a', '_', 't', 'u', 'r', 'm',
       'a', '_'] from rfl,
    List.cons_append, List.nil_append, List.cons.injEq, true_and] at hd
  obtain ⟨hs, hd2⟩ := natRepr_split (ndHead_cons _ (by decide))
    (ndHead_cons _ (by decide)) hd
  simp only [List.cons.injEq, true_and] at hd2
  exact ⟨hs, natRepr_data_inj hd2⟩

theorem restricaoName_inj {a b p a' b' p' : Nat}
    (h : restricaoName a b p = restricaoName a' b' p') :
    a = a' ∧ b = b' ∧ p = p' := by
  have hd := congrArg String.data h
  simp only [restricaoName, String.data_append, List.append_assoc,
    show "restricao_UC".data =
      ['r', 'e', 's', 't', 'r', 'i', 'c', 'a', 'o', '_', 'U', 'C'] from rfl,
    show "_UC".data = ['_', 'U', 'C'] from rfl,
    show "_periodo_".data =
      ['_', 'p', 'e', 'r', 'i', 'o', 'd', 'o', '_'] from rfl,
    List.cons_append, List.nil_append, List.cons.injEq, true_and] at hd
  obtain ⟨ha, hd2⟩ := natRepr_split (ndHead_cons _ (by decide))
    (ndHead_cons _ (by decide)) hd
  simp only [List.cons.injEq, true_and] at hd2
  obtain ⟨hb, hd3⟩ := natRepr_split (ndHead_cons _ (by decide))
    (ndHead_cons _ (by decide)) hd2
  simp only [List.cons.injEq, true_and] at hd3
  exact ⟨ha, hb, natRepr_data_inj hd3⟩

theorem ordemName_inj {u e l u' e' l' : Nat}
    (h : ordemName u e l = ordemName u' e' l') :
    u = u' ∧ e = e' ∧ l = l' := by
  have hd := congrArg String.data h
  simp only [ordemName, String.data_append, List.append_assoc,
    show "ordem_uc_".data =
      ['o', 'r', 'd', 'e', 'm', '_', 'u', 'c', '_'] from rfl,
    show "_turma_".data = ['_', 't', 'u', 'r', 'm', 'a', '_'] from rfl,
    show "_".data = ['_'] from rfl,
    List.cons_append, List.nil_append, List.cons.injEq, true_and] at hd
  obtain ⟨hu, hd2⟩ := natRepr_split (ndHead_cons _ (by decide))
    (ndHead_cons _ (by decide)) hd
  simp only [List.cons.injEq, true_and] at hd2
  obtain ⟨he, hd3⟩ := natRepr_split (ndHead_cons _ (by decide))
    (ndHead_cons _ (by decide)) hd2
  simp only [List.cons.injEq, true_and] at hd3
  exact ⟨hu, he, natRepr_data_inj hd3⟩

theorem contNameX_inj {a b c d e f a' b' c' d' e' f' : Nat}
    (h : contName (xVar a b c) (xVar d e f) =
      contName (xVar a' b' c') (xVar d' e' f')) :
    a = a' ∧ b = b' ∧ c = c' ∧ d = d' ∧ e = e' ∧ f = f' := by
  have hd := congrArg String.data h
  simp only [contName, xVar, String.data_append, List.append_assoc,
    show "cont_".data = ['c', 'o', 'n', 't', '_'] from rfl,
    show "x".data = ['x'] from rfl, show "_".data = ['_'] from rfl,
    List.cons_append, List.nil_append, List.cons.injEq, true_and] at hd
  obtain ⟨ha, hd2⟩ := natRepr_split (ndHead_cons _ (by decide))
    (ndHead_cons _ (by decide)) hd
  simp only [List.cons.injEq, true_and] at hd2
  obtain ⟨hb, hd3⟩ := natRepr_split (ndHead_cons _ (by decide))
    (ndHead_cons _ (by decide)) hd2
  simp only [List.cons.injEq, true_and] at hd3
  obtain ⟨hc, hd4⟩ := natRepr_split (ndHead_cons _ (by decide))
    (ndHead_cons _ (by decide)) hd3
  simp only [List.cons.injEq, true_and] at hd4
  obtain ⟨hd', hd5⟩ := natRepr_split (ndHead_cons _ (by decide))
    (ndHead_cons _ (by decide)) hd4
  simp only [List.cons.injEq, true_and] at hd5
  obtain ⟨he, hd6⟩ := natRepr_split (ndHead_cons _ (by decide))
    (ndHead_cons _ (by decide)) hd5
  simp only [List.cons.injEq, true_and] at hd6
  exact ⟨ha, hb, hc, hd', he, natRepr_data_inj hd6⟩

/-! ### First-fit search as a first-match scan -/

theorem tryStarts_eq (input : Input) (st : SState) (t semAtual sala : Nat) :
    ∀ idxs : List Nat,
    tryStarts input st t semAtual sala idxs =
      List.find? (fun seq => survives input st t semAtual (sala, seq))
        ((idxs.map (fun s =>
          windowAt (periodosOrdenados input) s (turmaDuracao input t))).filter
          consec)
  | [] => rfl
  | s :: rest => by
    rw [tryStarts, List.map_cons, List.filter_cons]
    set seq := windowAt (periodosOrdenados input) s (turmaDuracao input t) with hseq
    by_cases hc : consec seq
    · rw [if_pos hc, List.find?_cons]
      rw [show (!consec seq) = false by simp [hc], if_neg (by simp)]
      by_cases h1 : basicFreeFail input st (turmaDocente input t) sala seq
      · have hs : survives input st t semAtual (sala, seq) = false := by
          simp [survives, h1]
        rw [if_pos h1, hs]
        exact tryStarts_eq input st t semAtual sala rest
      · by_cases h2 : semRejects input st semAtual (turmaLabel input t) seq
        · have hs : survives input st t semAtual (sala, seq) = false := by
            simp [survives, h2]
          rw [if_neg h1, if_pos h2, hs]
          exact tryStarts_eq input st t semAtual sala rest
        · by_cases h3 : ucConflict input st (turmaUc input t) seq
          · have hs : survives input st t semAtual (sala, seq) = false := by
              simp [survives, h3]
            rw [if_neg h1, if_neg h2, if_pos h3, hs]
            exact tryStarts_eq input st t semAtual sala rest
          · have hs : survives input st t semAtual (sala, seq) = true := by
              simp [survives, h1, h2, h3]
            rw [if_neg h1, if_neg h2, if_neg h3, hs]
    · rw [if_neg hc, show (!consec seq) = true by simp [hc], if_pos rfl]
      exact tryStarts_eq input st t semAtual sala rest

theorem trySalas_eq (input : Input) (st : SState) (t semAtual : Nat) :
    ∀ salasL : List Nat,
    trySalas input st t semAtual salasL =
      List.find? (survives input st t semAtual)
        (salasL.flatMap (fun sala =>
          (((startIdxs (periodosOrdenados input).length
              (turmaDuracao input t)).map (fun s =>
            windowAt (periodosOrdenados input) s (turmaDuracao input t))).filter
            consec).map (fun seq => (sala, seq))))
  | [] => rfl
  | sala :: rest => by
    rw [trySalas, List.flatMap_cons, List.find?_append, List.find?_map,
      tryStarts_eq input st t semAtual sala]
    cases hfi : List.find? (fun seq => survives input st t semAtual (sala, seq))
      (((startIdxs (periodosOrdenados input).length
          (turmaDuracao input t)).map (fun s =>
        windowAt (periodosOrdenados input) s (turmaDuracao input t))).filter
        consec) with
    | none =>
      have : (fun seq => survives input st t semAtual (sala, seq)) =
          (survives input st t semAtual ∘ fun seq => (sala, seq)) := rfl
      rw [← this, hfi]
      simp only [Option.map_none, Option.none_or]
      exact trySalas_eq input st t semAtual rest
    | some seq =>
      have : (fun seq => survives input st t semAtual (sala, seq)) =
          (survives input st t semAtual ∘ fun seq => (sala, seq)) := rfl
      rw [← this, hfi]
      rfl

theorem allocTurma_eq (input : Input) (enum : List Nat → List Nat)
    (st : SState) (t semAtual : Nat) :
    allocTurma input enum st t semAtual =
      List.find? (survives input st t semAtual) (candidates input enum t) := by
  rw [allocTurma, trySalas_eq]
  rfl

/-! ### dedupF and turmaSet facts -/

theorem dedupF_aux_nodup {α : Type} [DecidableEq α] :
    ∀ (l acc : List α), acc.Nodup →
      (l.foldl (fun acc x => if x ∈ acc then acc else acc ++ [x]) acc).Nodup
  | [], _, h => h
  | x :: rest, acc, h => by
    rw [List.foldl_cons]
    by_cases hx : x ∈ acc
    · rw [if_pos hx]
      exact dedupF_aux_nodup rest acc h
    · rw [if_neg hx]
      refine dedupF_aux_nodup rest _ ?_
      simp [List.nodup_append, h, hx]

theorem dedupF_nodup {α : Type} [DecidableEq α] (l : List α) :
    (dedupF l).Nodup :=
  dedupF_aux_nodup l [] (by simp)

theorem dedupF_aux_mem {α : Type} [DecidableEq α] (a : α) :
    ∀ (l acc : List α),
      a ∈ l.foldl (fun acc x => if x ∈ acc then acc else acc ++ [x]) acc ↔
        a ∈ acc ∨ a ∈ l
  | [], acc => by simp
  | x :: rest, acc => by
    rw [List.foldl_cons]
    by_cases hx : x ∈ acc
    · rw [if_pos hx, dedupF_aux_mem a rest acc]
      constructor
      · rintro (h | h)
        · exact Or.inl h
        · exact Or.inr (List.mem_cons_of_mem _ h)
      · rintro (h | h)
        · exact Or.inl h
        · rcases List.mem_cons.1 h with rfl | h
          · exact Or.inl hx
          · exact Or.inr h
    · rw [if_neg hx, dedupF_aux_mem a rest _]
      simp only [List.mem_append, List.mem_singleton, List.mem_cons]
      tauto

theorem dedupF_mem {α : Type} [DecidableEq α] {a : α} {l : List α} :
    a ∈ dedupF l ↔ a ∈ l := by
  rw [dedupF, dedupF_aux_mem]
  simp

theorem turmaSet_nodup (input : Input) : (turmaSet input).Nodup :=
  (List.perm_insertionSort _ _).symm.nodup (dedupF_nodup _)

theorem turmaSet_sorted (input : Input) :
    List.Sorted (· < ·) (turmaSet input) :=
  List.Sorted.lt_of_le (List.sorted_insertionSort _ _) (turmaSet_nodup input)

theorem mem_turmaSet {input : Input} {x : Nat} :
    x ∈ turmaSet input ↔ x ∈ input.turmas.map (·.id) := by
  rw [turmaSet, (List.perm_insertionSort _ _).mem_iff, dedupF_mem]

/-- C1: the allocation search processes sections in ascending id order and,
for each section, commits exactly the first candidate (room, contiguous
period block) — rooms in realized enumeration order, blocks in ascending
start order — that survives all checks, reserving it and stopping the
search for that section; when none survives the state is unchanged. -/
theorem claim_C1 (input : Input) (enum : List Nat → List Nat) (st : SState)
    (t semAtual : Nat)
    (hsem : ucSemestreOf input (turmaUc input t) = some semAtual) :
    List.Sorted (· < ·) (turmaSet input) ∧
    processTurma input enum st t =
      match List.find? (survives input st t semAtual)
          (candidates input enum t) with
      | none => st
      | some c =>
        commit st t c.1 (turmaDocente input t) (turmaDuracao input t) c.2 := by
  refine ⟨turmaSet_sorted input, ?_⟩
  simp only [processTurma, hsem]
  by_cases hempty : (salasPermitidas enum input t).isEmpty
  · rw [if_pos hempty]
    have hc : candidates input enum t = [] := by
      rw [candidates, List.isEmpty_iff] at *
      rw [hempty]
      rfl
    rw [hc]
    rfl
  · rw [if_neg hempty, allocTurma_eq]

/-! ### Colon boundaries: a line determines its constraint name -/

theorem str_ext {s t : String} (h : s.data = t.data) : s = t := by
  cases s
  cases t
  exact congrArg String.mk h

theorem colon_split : ∀ (a : List Char) {c b d : List Char},
    (∀ x ∈ a, (x == ':') = false) → (∀ x ∈ c, (x == ':') = false) →
    a ++ ':' :: b = c ++ ':' :: d → a = c ∧ b = d := by
  intro a
  induction a with
  | nil =>
    intro c b d _ hc h
    cases c with
    | nil => simpa using h
    | cons x c' =>
      exfalso
      simp only [List.nil_append, List.cons_append, List.cons.injEq] at h
      have hx := hc x (by simp)
      rw [← h.1] at hx
      simp at hx
  | cons y a' ih =>
    intro c b d ha hc h
    cases c with
    | nil =>
      exfalso
      simp only [List.nil_append, List.cons_append, List.cons.injEq] at h
      have hy := ha y (by simp)
      rw [h.1] at hy
      simp at hy
    | cons x c' =>
      simp only [List.cons_append, List.cons.injEq] at h
      obtain ⟨rfl, h2⟩ := h
      obtain ⟨h3, h4⟩ := ih (fun z hz => ha z (by simp [hz]))
        (fun z hz => hc z (by simp [hz])) h2
      exact ⟨by rw [h3], h4⟩

theorem mkLine_data (n b : String) :
    (mkLine n b).data = n.data ++ ':' :: ' ' :: (b.data ++ ['\n']) := by
  simp [mkLine, String.data_append, show (": ").data = [':', ' '] from rfl,
    show ("\n").data = ['\n'] from rfl]

theorem mkLine_name_inj {n b n' b' : String} (hn : colonFree n)
    (hn' : colonFree n') (h : mkLine n b = mkLine n' b') : n = n' := by
  have hd := congrArg String.data h
  rw [mkLine_data, mkLine_data] at hd
  exact str_ext (colon_split n.data hn hn' hd).1

theorem takeWhile_append_stop {p : Char → Bool} :
    ∀ (a : List Char) {x : Char} (y : List Char), (∀ c ∈ a, p c = true) →
      p x = false → List.takeWhile p (a ++ x :: y) = a
  | [], x, y, _, hx => by simp [List.takeWhile_cons, hx]
  | c :: a', x, y, ha, hx => by
    have hc : p c = true := ha c (by simp)
    rw [List.cons_append, List.takeWhile_cons, hc]
    simp only [if_true]
    exact congrArg (List.cons c)
      (takeWhile_append_stop a' y (fun z hz => ha z (by simp [hz])) hx)

theorem nameOf_mkLine {n b : String} (hn : colonFree n) :
    nameOf (mkLine n b) = n := by
  rw [nameOf, mkLine_data,
    takeWhile_append_stop n.data _ (fun c hc => by simp [hn c hc])
      (by decide)]

theorem colonFree_natRepr (n : Nat) : colonFree (natRepr n) := by
  intro c hc
  have hd := natRepr_digits (n + 1) n c hc
  by_cases hb : c = ':'
  · subst hb
    exact absurd hd (by decide)
  · simp [hb]

theorem colonFree_append {a b : String} (ha : colonFree a)
    (hb : colonFree b) : colonFree (a ++ b) := by
  intro c hc
  rw [String.data_append] at hc
  rcases List.mem_append.1 hc with h | h
  · exact ha c h
  · exact hb c h

theorem colonFree_xVar (t s p : Nat) : colonFree (xVar t s p) :=
  colonFree_append (colonFree_append (colonFree_append (colonFree_append
    (colonFree_append (by decide) (colonFree_natRepr t)) (by decide))
      (colonFree_natRepr s)) (by decide)) (colonFree_natRepr p)

theorem colonFree_contName {v1 v2 : String} (h1 : colonFree v1)
    (h2 : colonFree v2) : colonFree (contName v1 v2) :=
  colonFree_append (colonFree_append (colonFree_append (by decide) h1)
    (by decide)) h2

theorem colonFree_agendadaName (t : Nat) : colonFree (agendadaName t) :=
  colonFree_append (colonFree_append (by decide) (colonFree_natRepr t))
    (by decide)

theorem colonFree_salaUsoName (s t : Nat) : colonFree (salaUsoName s t) :=
  colonFree_append (colonFree_append (colonFree_append (by decide)
    (colonFree_natRepr s)) (by decide)) (colonFree_natRepr t)

theorem colonFree_restricaoName (a b p : Nat) :
    colonFree (restricaoName a b p) :=
  colonFree_append (colonFree_append (colonFree_append (colonFree_append
    (colonFree_append (by decide) (colonFree_natRepr a)) (by decide))
      (colonFree_natRepr b)) (by decide)) (colonFree_natRepr p)

theorem colonFree_ordemName (u e l : Nat) : colonFree (ordemName u e l) :=
  colonFree_append (colonFree_append (colonFree_append (colonFree_append
    (colonFree_append (by decide) (colonFree_natRepr u)) (by decide))
      (colonFree_natRepr e)) (by decide)) (colonFree_natRepr l)

theorem colonFree_docConfName (d p : Nat) : colonFree (docConfName d p) :=
  colonFree_append (colonFree_append (colonFree_append (colonFree_append
    (by decide) (colonFree_natRepr d)) (by decide)) (colonFree_natRepr p))
    (by decide)

theorem colonFree_salaConfName (s p : Nat) : colonFree (salaConfName s p) :=
  colonFree_append (colonFree_append (colonFree_append (colonFree_append
    (by decide) (colonFree_natRepr s)) (by decide)) (colonFree_natRepr p))
    (by decide)

/-! ### Distinct constraint-name families -/

theorem ne_of_head? {s t : String} (h : s.data.head? ≠ t.data.head?) :
    s ≠ t :=
  fun he => h (congrArg (fun x => x.data.head?) he)

theorem contName_head? (v1 v2 : String) :
    (contName v1 v2).data.head? = some 'c' := by
  simp [contName, String.data_append,
    show "cont_".data = ['c', 'o', 'n', 't', '_'] from rfl]

theorem agendadaName_head? (t : Nat) :
    (agendadaName t).data.head? = some 't' := by
  simp [agendadaName, String.data_append,
    show "turma_".data = ['t', 'u', 'r', 'm', 'a', '_'] from rfl]

theorem salaUsoName_head? (s t : Nat) :
    (salaUsoName s t).data.head? = some 's' := by
  simp [salaUsoName, String.data_append,
    show "sala_".data = ['s', 'a', 'l', 'a', '_'] from rfl]

theorem restricaoName_head? (a b p : Nat) :
    (restricaoName a b p).data.head? = some 'r' := by
  simp [restricaoName, String.data_append,
    show "restricao_UC".data =
      ['r', 'e', 's', 't', 'r', 'i', 'c', 'a', 'o', '_', 'U', 'C'] from rfl]

theorem ordemName_head? (u e l : Nat) :
    (ordemName u e l).data.head? = some 'o' := by
  simp [ordemName, String.data_append,
    show "ordem_uc_".data =
      ['o', 'r', 'd', 'e', 'm', '_', 'u', 'c', '_'] from rfl]

theorem docConfName_head? (d p : Nat) :
    (docConfName d p).data.head? = some 'd' := by
  simp [docConfName, String.data_append,
    show "docente_".data = ['d', 'o', 'c', 'e', 'n', 't', 'e', '_'] from rfl]

theorem salaUsoName_ne_salaConfName (s t s' p' : Nat) :
    salaUsoName s t ≠ salaConfName s' p' := by
  intro h
  have hd := congrArg String.data h
  simp only [salaUsoName, salaConfName, String.data_append,
    show "sala_".data = ['s', 'a', 'l', 'a', '_'] from rfl,
    show "_uso_para_turma_".data =
      ['_', 'u', 's', 'o', '_', 'p', 'a', 'r', 'a', '_', 't', 'u', 'r', 'm',
       'a', '_'] from rfl,
    show "_periodo_".data =
      ['_', 'p', 'e', 'r', 'i', 'o', 'd', 'o', '_'] from rfl,
    show "_conflito".data =
      ['_', 'c', 'o', 'n', 'f', 'l', 'i', 't', 'o'] from rfl,
    List.cons_append, List.nil_append, List.append_assoc,
    List.cons.injEq, true_and] at hd
  obtain ⟨-, hd2⟩ := natRepr_split (ndHead_cons _ (by decide))
    (ndHead_cons _ (by decide)) hd
  simp only [List.cons.injEq] at hd2
  exact absurd hd2.2.1 (by decide)

/-! ### Python dict lemmas -/

theorem dmem_iff_dget? (m : List ((Nat × Nat) × Nat)) (k : Nat × Nat) :
    dmem m k = true ↔ ∃ v, dget? m k = some v := by
  induction m with
  | nil => simp [dmem, dget?]
  | cons e m ih =>
    by_cases he : e.1 = k
    · simp [dmem, dget?, List.find?_cons, he]
    · simp only [dmem, List.any_cons, dget?, List.find?_cons,
        show (e.1 == k) = false by simpa using he, Bool.false_or]
      exact ih

theorem dget?_cons_hit {e : (Nat × Nat) × Nat} {m : List ((Nat × Nat) × Nat)}
    {k : Nat × Nat} (he : e.1 = k) : dget? (e :: m) k = some e.2 := by
  rw [dget?, List.find?_cons_of_pos _ (by simpa using he)]
  rfl

theorem dget?_cons_miss {e : (Nat × Nat) × Nat}
    {m : List ((Nat × Nat) × Nat)} {k : Nat × Nat} (he : e.1 ≠ k) :
    dget? (e :: m) k = dget? m k := by
  rw [dget?, List.find?_cons_of_neg _ (by simpa using he)]
  rfl

theorem dget?_map_keep {k k' : Nat × Nat} {v : Nat} (hk : k' ≠ k) :
    ∀ m : List ((Nat × Nat) × Nat),
      dget? (m.map (fun e => if e.1 == k then (k, v) else e)) k' = dget? m k'
  | [] => rfl
  | e :: m => by
    rw [List.map_cons]
    by_cases he : e.1 = k
    · have hfe : (if (e.1 == k) = true then (k, v) else e) = (k, v) := by
        simp [he]
      rw [hfe, dget?_cons_miss (fun hh => hk hh.symm),
        dget?_cons_miss (he ▸ fun hh => hk hh.symm), dget?_map_keep hk m]
    · have hfe : (if (e.1 == k) = true then (k, v) else e) = e := by
        simp [he]
      rw [hfe]
      by_cases hek : e.1 = k'
      · rw [dget?_cons_hit hek, dget?_cons_hit hek]
      · rw [dget?_cons_miss hek, dget?_cons_miss hek, dget?_map_keep hk m]

theorem dget?_map_hit {k : Nat × Nat} {v : Nat} :
    ∀ m : List ((Nat × Nat) × Nat),
      m.any (fun e => e.1 == k) = true →
      dget? (m.map (fun e => if e.1 == k then (k, v) else e)) k = some v
  | e :: m, hmem => by
    rw [List.map_cons]
    by_cases he : e.1 = k
    · have hfe : (if (e.1 == k) = true then (k, v) else e) = (k, v) := by
        simp [he]
      rw [hfe, dget?_cons_hit rfl]
    · have hfe : (if (e.1 == k) = true then (k, v) else e) = e := by
        simp [he]
      have hrest : m.any (fun e => e.1 == k) = true := by
        rw [List.any_cons, show (e.1 == k) = false by simpa using he,
          Bool.false_or] at hmem
        exact hmem
      rw [hfe, dget?_cons_miss he]
      exact dget?_map_hit m hrest

theorem find?_key_none {k : Nat × Nat} {m : List ((Nat × Nat) × Nat)}
    (h : m.any (fun e => e.1 == k) = false) :
    List.find? (fun e => e.1 == k) m = none := by
  rw [List.find?_eq_none]
  intro e he hpe
  rw [List.any_eq_false] at h
  exact h e he hpe

theorem dget?_dinsert (m : List ((Nat × Nat) × Nat)) (k k' : Nat × Nat)
    (v : Nat) :
    dget? (dinsert m k v) k' = if k' = k then some v else dget? m k' := by
  rw [dinsert]
  by_cases hmem : m.any (fun e => e.1 == k)
  · rw [if_pos hmem]
    by_cases hk : k' = k
    · rw [if_pos hk, hk]
      exact dget?_map_hit m hmem
    · rw [if_neg hk]
      exact dget?_map_keep hk m
  · have hmem' : m.any (fun e => e.1 == k) = false :=
      Bool.eq_false_iff.mpr hmem
    rw [if_neg hmem]
    by_cases hk : k' = k
    · rw [if_pos hk, hk, dget?, List.find?_append, find?_key_none hmem']
      simp [List.find?_cons]
    · rw [if_neg hk, dget?, List.find?_append, dget?]
      have h2 : List.find? (fun e => e.1 == k') [(k, v)] = none := by
        rw [List.find?_cons_of_neg _ (by simp; exact fun hh => hk hh.symm)]
        rfl
      rw [h2]
      cases List.find? (fun e => e.1 == k') m <;> rfl

theorem dmem_dinsert (m : List ((Nat × Nat) × Nat)) (k k' : Nat × Nat)
    (v : Nat) :
    dmem (dinsert m k v) k' = true ↔ k' = k ∨ dmem m k' = true := by
  rw [dmem_iff_dget?, dget?_dinsert]
  by_cases hk : k' = k
  · simp [hk]
  · simp [hk, dmem_iff_dget?]

theorem pvAppend_entries (m : List ((Nat × Nat) × List String))
    (k : Nat × Nat) (v : String) :
    ∀ e ∈ pvAppend m k v,
      e ∈ m ∨ (∃ e₁ ∈ m, e₁.1 = k ∧ e = (e₁.1, e₁.2 ++ [v])) ∨
        e = (k, [v]) := by
  intro e he
  rw [pvAppend] at he
  by_cases hmem : m.any (fun e => e.1 == k)
  · rw [if_pos hmem] at he
    obtain ⟨e₁, he₁, hfe⟩ := List.mem_map.1 he
    by_cases h1 : e₁.1 = k
    · right; left
      refine ⟨e₁, he₁, h1, ?_⟩
      rw [← hfe]
      simp [show (e₁.1 == k) = true by simpa using h1]
    · left
      rw [← hfe]
      simpa [show (e₁.1 == k) = false by simpa using h1] using he₁
  · rw [if_neg hmem] at he
    rcases List.mem_append.1 he with h | h
    · exact Or.inl h
    · right; right
      simpa using h

/-! ### Window and contiguity facts -/

theorem consec_chain : ∀ l : List Nat, consec l = true →
    List.Chain' (fun a b => a + 1 = b) l
  | [], _ => List.chain'_nil
  | [a], _ => List.chain'_singleton a
  | a :: b :: rest, h => by
    rw [consec, Bool.and_eq_true] at h
    refine List.Chain'.cons (by simpa using h.1) (consec_chain (b :: rest) h.2)

theorem consec_nodup {l : List Nat} (h : consec l = true) : l.Nodup := by
  have hc := consec_chain l h
  have hlt : List.Chain' (· < ·) l :=
    List.Chain'.imp (fun a b hab => by omega) hc
  have hp : List.Pairwise (· < ·) l := List.chain'_iff_pairwise.1 hlt
  exact hp.imp Nat.ne_of_lt

theorem windowAt_length {P : List Nat} {s d : Nat} (hd : d ≤ P.length)
    (hs : s ≤ P.length - d) : (windowAt P s d).length = d := by
  simp only [windowAt, List.length_take, List.length_drop]
  omega

theorem mem_candidates {input : Input} {enum : List Nat → List Nat} {t : Nat}
    {c : Nat × List Nat} (h : c ∈ candidates input enum t) :
    c.1 ∈ salasPermitidas enum input t ∧ consec c.2 = true ∧
      c.2.length = turmaDuracao input t := by
  obtain ⟨sala, hsala, hc⟩ := List.mem_flatMap.1 h
  obtain ⟨seq, hseq, hcs⟩ := List.mem_map.1 hc
  obtain ⟨hseqm, hcons⟩ := List.mem_filter.1 hseq
  obtain ⟨s, hs, hw⟩ := List.mem_map.1 hseqm
  rw [startIdxs] at hs
  subst hcs
  refine ⟨hsala, hcons, ?_⟩
  by_cases hdle : turmaDuracao input t ≤ (periodosOrdenados input).length
  · rw [if_pos hdle] at hs
    rw [← hw]
    exact windowAt_length hdle (by
      have := List.mem_range.1 hs
      omega)
  · rw [if_neg hdle] at hs
    cases hs

/-! ### Commit-loop characterization -/

theorem addVar_mem (l : List String) (v w : String) :
    w ∈ addVar l v ↔ w ∈ l ∨ w = v := by
  rw [addVar]
  by_cases h : v ∈ l
  · rw [if_pos h]
    constructor
    · exact Or.inl
    · rintro (hw | rfl)
      · exact hw
      · exact h
  · rw [if_neg h]
    simp

theorem addVar_nodup {l : List String} (v : String) (h : l.Nodup) :
    (addVar l v).Nodup := by
  rw [addVar]
  by_cases hv : v ∈ l
  · rw [if_pos hv]
    exact h
  · rw [if_neg hv]
    simp [List.nodup_append, h, hv]

theorem cpFold_stable (t sala docente : Nat) :
    ∀ (seq : List Nat) (st : SState),
      (seq.foldl (commitPeriodo t sala docente) st).body = st.body ∧
      (seq.foldl (commitPeriodo t sala docente) st).written = st.written ∧
      (seq.foldl (commitPeriodo t sala docente) st).placements =
        st.placements
  | [], _ => ⟨rfl, rfl, rfl⟩
  | _ :: rest, st => cpFold_stable t sala docente rest _

theorem cpFold_salaOcc (t sala docente : Nat) :
    ∀ (seq : List Nat) (st : SState) (s' p' : Nat),
      dget? ((seq.foldl (commitPeriodo t sala docente) st).salaOcc)
          (s', p') =
        if s' = sala ∧ p' ∈ seq then some t else dget? st.salaOcc (s', p')
  | [], st, s', p' => by simp
  | p :: rest, st, s', p' => by
    rw [List.foldl_cons, cpFold_salaOcc t sala docente rest _ s' p']
    by_cases h1 : s' = sala ∧ p' ∈ rest
    · rw [if_pos h1, if_pos ⟨h1.1, List.mem_cons_of_mem _ h1.2⟩]
    · rw [if_neg h1]
      show dget? (dinsert st.salaOcc (sala, p) t) (s', p') = _
      rw [dget?_dinsert]
      by_cases h2 : s' = sala ∧ p' ∈ p :: rest
      · rw [if_pos h2]
        have hk : (s', p') = (sala, p) := by
          rcases List.mem_cons.1 h2.2 with h | h
          · rw [h2.1, h]
          · exact absurd ⟨h2.1, h⟩ h1
        rw [if_pos hk]
      · rw [if_neg h2]
        have hk : (s', p') ≠ (sala, p) := by
          intro hh
          apply h2
          injection hh with ha hb
          exact ⟨ha, by rw [hb]; exact List.mem_cons_self _ _⟩
        rw [if_neg hk]

theorem cpFold_docOcc (t sala docente : Nat) :
    ∀ (seq : List Nat) (st : SState) (d' p' : Nat),
      dget? ((seq.foldl (commitPeriodo t sala docente) st).docOcc)
          (d', p') =
        if d' = docente ∧ p' ∈ seq then some t
        else dget? st.docOcc (d', p')
  | [], st, d', p' => by simp
  | p :: rest, st, d', p' => by
    rw [List.foldl_cons, cpFold_docOcc t sala docente rest _ d' p']
    by_cases h1 : d' = docente ∧ p' ∈ rest
    · rw [if_pos h1, if_pos ⟨h1.1, List.mem_cons_of_mem _ h1.2⟩]
    · rw [if_neg h1]
      show dget? (dinsert st.docOcc (docente, p) t) (d', p') = _
      rw [dget?_dinsert]
      by_cases h2 : d' = docente ∧ p' ∈ p :: rest
      · rw [if_pos h2]
        have hk : (d', p') = (docente, p) := by
          rcases List.mem_cons.1 h2.2 with h | h
          · rw [h2.1, h]
          · exact absurd ⟨h2.1, h⟩ h1
        rw [if_pos hk]
      · rw [if_neg h2]
        have hk : (d', p') ≠ (docente, p) := by
          intro hh
          apply h2
          injection hh with ha hb
          exact ⟨ha, by rw [hb]; exact List.mem_cons_self _ _⟩
        rw [if_neg hk]

theorem cpFold_vars (t sala docente : Nat) :
    ∀ (seq : List Nat) (st : SState) (v : String),
      v ∈ (seq.foldl (commitPeriodo t sala docente) st).vars ↔
        v ∈ st.vars ∨ ∃ p ∈ seq, v = xVar t sala p
  | [], st, v => by simp
  | p :: rest, st, v => by
    rw [List.foldl_cons, cpFold_vars t sala docente rest _ v]
    show (v ∈ addVar st.vars (xVar t sala p) ∨ _) ↔ _
    rw [addVar_mem]
    constructor
    · rintro ((hv | rfl) | ⟨q, hq, rfl⟩)
      · exact Or.inl hv
      · exact Or.inr ⟨p, List.mem_cons_self _ _, rfl⟩
      · exact Or.inr ⟨q, List.mem_cons_of_mem _ hq, rfl⟩
    · rintro (hv | ⟨q, hq, rfl⟩)
      · exact Or.inl (Or.inl hv)
      · rcases List.mem_cons.1 hq with rfl | hq
        · exact Or.inl (Or.inr rfl)
        · exact Or.inr ⟨q, hq, rfl⟩

theorem cpFold_varsNodup (t sala docente : Nat) :
    ∀ (seq : List Nat) (st : SState), st.vars.Nodup →
      (seq.foldl (commitPeriodo t sala docente) st).vars.Nodup
  | [], _, h => h
  | p :: rest, st, h =>
    cpFold_varsNodup t sala docente rest _ (addVar_nodup _ h)

theorem cpFold_docPV (t sala docente : Nat) :
    ∀ (seq : List Nat) (st : SState),
      (∀ e ∈ st.docPV, dmem st.docOcc e.1 = true) →
      (∀ p ∈ seq, dmem st.docOcc (docente, p) = false) →
      seq.Nodup →
      ∀ e ∈ (seq.foldl (commitPeriodo t sala docente) st).docPV,
        e ∈ st.docPV ∨ ∃ p ∈ seq, e = ((docente, p), [xVar t sala p])
  | [], st, _, _, _, e, he => Or.inl he
  | p :: rest, st, hsync, hfresh, hnd, e, he => by
    rw [List.foldl_cons] at he
    have hfreshp : dmem st.docOcc (docente, p) = false :=
      hfresh p (List.mem_cons_self _ _)
    have hsync' : ∀ e ∈ (commitPeriodo t sala docente st p).docPV,
        dmem (commitPeriodo t sala docente st p).docOcc e.1 = true := by
      intro e' he'
      rcases pvAppend_entries _ _ _ e' he' with h | ⟨e₁, he₁, hk, -⟩ | rfl
      · exact (dmem_dinsert _ _ _ _).2 (Or.inr ((hsync e' h)))
      · exact absurd (hk ▸ hsync e₁ he₁) (by rw [hfreshp]; simp)
      · exact (dmem_dinsert _ _ _ _).2 (Or.inl rfl)
    have hfresh' : ∀ q ∈ rest,
        dmem (commitPeriodo t sala docente st p).docOcc (docente, q) =
          false := by
      intro q hq
      have hqp : q ≠ p := fun hh => (List.nodup_cons.1 hnd).1 (hh ▸ hq)
      rcases Bool.eq_false_or_eq_true
          (dmem (commitPeriodo t sala docente st p).docOcc (docente, q))
        with h | h
      swap
      · exact h
      · exfalso
        rcases (dmem_dinsert _ _ _ _).1 h with hk | hold
        · exact hqp (by injection hk)
        · have := hfresh q (List.mem_cons_of_mem _ hq)
          rw [this] at hold
          cases hold
    rcases cpFold_docPV t sala docente rest _ hsync' hfresh'
        (List.nodup_cons.1 hnd).2 e he with h | ⟨q, hq, rfl⟩
    · rcases pvAppend_entries _ _ _ e h with h2 | ⟨e₁, he₁, hk, -⟩ | rfl
      · exact Or.inl h2
      · exact absurd (hk ▸ hsync e₁ he₁) (by rw [hfreshp]; simp)
      · exact Or.inr ⟨p, List.mem_cons_self _ _, rfl⟩
    · exact Or.inr ⟨q, List.mem_cons_of_mem _ hq, rfl⟩

theorem cpFold_salaPV (t sala docente : Nat) :
    ∀ (seq : List Nat) (st : SState),
      (∀ e ∈ st.salaPV, dmem st.salaOcc e.1 = true) →
      (∀ p ∈ seq, dmem st.salaOcc (sala, p) = false) →
      seq.Nodup →
      ∀ e ∈ (seq.foldl (commitPeriodo t sala docente) st).salaPV,
        e ∈ st.salaPV ∨ ∃ p ∈ seq, e = ((sala, p), [xVar t sala p])
  | [], st, _, _, _, e, he => Or.inl he
  | p :: rest, st, hsync, hfresh, hnd, e, he => by
    rw [List.foldl_cons] at he
    have hfreshp : dmem st.salaOcc (sala, p) = false :=
      hfresh p (List.mem_cons_self _ _)
    have hsync' : ∀ e ∈ (commitPeriodo t sala docente st p).salaPV,
        dmem (commitPeriodo t sala docente st p).salaOcc e.1 = true := by
      intro e' he'
      rcases pvAppend_entries _ _ _ e' he' with h | ⟨e₁, he₁, hk, -⟩ | rfl
      · exact (dmem_dinsert _ _ _ _).2 (Or.inr ((hsync e' h)))
      · exact absurd (hk ▸ hsync e₁ he₁) (by rw [hfreshp]; simp)
      · exact (dmem_dinsert _ _ _ _).2 (Or.inl rfl)
    have hfresh' : ∀ q ∈ rest,
        dmem (commitPeriodo t sala docente st p).salaOcc (sala, q) =
          false := by
      intro q hq
      have hqp : q ≠ p := fun hh => (List.nodup_cons.1 hnd).1 (hh ▸ hq)
      rcases Bool.eq_false_or_eq_true
          (dmem (commitPeriodo t sala docente st p).salaOcc (sala, q))
        with h | h
      swap
      · exact h
      · exfalso
        rcases (dmem_dinsert _ _ _ _).1 h with hk | hold
        · exact hqp (by injection hk)
        · have := hfresh q (List.mem_cons_of_mem _ hq)
          rw [this] at hold
          cases hold
    rcases cpFold_salaPV t sala docente rest _ hsync' hfresh'
        (List.nodup_cons.1 hnd).2 e he with h | ⟨q, hq, rfl⟩
    · rcases pvAppend_entries _ _ _ e h with h2 | ⟨e₁, he₁, hk, -⟩ | rfl
      · exact Or.inl h2
      · exact absurd (hk ▸ hsync e₁ he₁) (by rw [hfreshp]; simp)
      · exact Or.inr ⟨p, List.mem_cons_self _ _, rfl⟩
    · exact Or.inr ⟨q, List.mem_cons_of_mem _ hq, rfl⟩

/-! ### Constraint writing -/

theorem writeIfNew_stable (st : SState) (l : String) :
    (writeIfNew st l).salaOcc = st.salaOcc ∧
    (writeIfNew st l).docOcc = st.docOcc ∧
    (writeIfNew st l).docPV = st.docPV ∧
    (writeIfNew st l).salaPV = st.salaPV ∧
    (writeIfNew st l).vars = st.vars ∧
    (writeIfNew st l).placements = st.placements := by
  rw [writeIfNew]
  split <;> exact ⟨rfl, rfl, rfl, rfl, rfl, rfl⟩

theorem writeFold : ∀ (L : List String) (st : SState),
    (∀ l, l ∈ st.written ↔ l ∈ st.body) → (∀ l ∈ L, l ∉ st.body) →
    L.Nodup →
    (L.foldl writeIfNew st).body = st.body ++ L ∧
    (∀ l, l ∈ (L.foldl writeIfNew st).written ↔
      l ∈ (L.foldl writeIfNew st).body) ∧
    (L.foldl writeIfNew st).salaOcc = st.salaOcc ∧
    (L.foldl writeIfNew st).docOcc = st.docOcc ∧
    (L.foldl writeIfNew st).docPV = st.docPV ∧
    (L.foldl writeIfNew st).salaPV = st.salaPV ∧
    (L.foldl writeIfNew st).vars = st.vars ∧
    (L.foldl writeIfNew st).placements = st.placements
  | [], st, hw, _, _ => ⟨by simp, hw, rfl, rfl, rfl, rfl, rfl, rfl⟩
  | l :: rest, st, hw, hf, hnd => by
    rw [List.foldl_cons]
    have hlnotb : l ∉ st.body := hf l (List.mem_cons_self _ _)
    have hlnotw : l ∉ st.written := fun hm => hlnotb ((hw l).1 hm)
    have hst' : writeIfNew st l =
        { st with body := st.body ++ [l], written := st.written ++ [l] } := by
      rw [writeIfNew, if_neg hlnotw]
    rw [hst']
    have hw' : ∀ l', l' ∈ st.written ++ [l] ↔ l' ∈ st.body ++ [l] := by
      intro l'
      simp [List.mem_append, hw l']
    have hf' : ∀ l' ∈ rest, l' ∉ st.body ++ [l] := by
      intro l' hl' hmem
      rcases List.mem_append.1 hmem with h | h
      · exact hf l' (List.mem_cons_of_mem _ hl') h
      · have heq : l' = l := by simpa using h
        exact (List.nodup_cons.1 hnd).1 (heq ▸ hl')
    obtain ⟨hb, hrest⟩ := writeFold rest
      { st with body := st.body ++ [l], written := st.written ++ [l] }
      hw' hf' (List.nodup_cons.1 hnd).2
    refine ⟨?_, hrest.1, hrest.2.1, hrest.2.2.1, hrest.2.2.2.1,
      hrest.2.2.2.2.1, hrest.2.2.2.2.2.1, hrest.2.2.2.2.2.2⟩
    rw [hb, List.append_assoc, List.singleton_append]

/-! ### Line-level discrimination -/

theorem contLineX_inj {a b c d e f a' b' c' d' e' f' : Nat}
    (h : contLine (xVar a b c) (xVar d e f) =
      contLine (xVar a' b' c') (xVar d' e' f')) :
    a = a' ∧ b = b' ∧ c = c' ∧ d = d' ∧ e = e' ∧ f = f' :=
  contNameX_inj (mkLine_name_inj
    (colonFree_contName (colonFree_xVar a b c) (colonFree_xVar d e f))
    (colonFree_contName (colonFree_xVar a' b' c') (colonFree_xVar d' e' f'))
    h)

theorem agendadaLine_turma {t d : Nat} {vs : List String} {t' d' : Nat}
    {vs' : List String} (h : agendadaLine t d vs = agendadaLine t' d' vs') :
    t = t' :=
  agendadaName_inj (mkLine_name_inj (colonFree_agendadaName t)
    (colonFree_agendadaName t') h)

theorem salaUsoLine_key {s t d : Nat} {vs : List String} {s' t' d' : Nat}
    {vs' : List String} (h : salaUsoLine s t d vs = salaUsoLine s' t' d' vs') :
    s = s' ∧ t = t' :=
  salaUsoName_inj (mkLine_name_inj (colonFree_salaUsoName s t)
    (colonFree_salaUsoName s' t') h)

theorem contLineX_ne_agendadaLine {a b c d e f t du : Nat}
    {vs : List String} :
    contLine (xVar a b c) (xVar d e f) ≠ agendadaLine t du vs := by
  intro h
  have hn := mkLine_name_inj
    (colonFree_contName (colonFree_xVar a b c) (colonFree_xVar d e f))
    (colonFree_agendadaName t) h
  exact ne_of_head?
    (by rw [contName_head?, agendadaName_head?]; decide) hn

theorem contLineX_ne_salaUsoLine {a b c d e f s t du : Nat}
    {vs : List String} :
    contLine (xVar a b c) (xVar d e f) ≠ salaUsoLine s t du vs := by
  intro h
  have hn := mkLine_name_inj
    (colonFree_contName (colonFree_xVar a b c) (colonFree_xVar d e f))
    (colonFree_salaUsoName s t) h
  exact ne_of_head?
    (by rw [contName_head?, salaUsoName_head?]; decide) hn

theorem agendadaLine_ne_salaUsoLine {t du s t' du' : Nat}
    {vs vs' : List String} :
    agendadaLine t du vs ≠ salaUsoLine s t' du' vs' := by
  intro h
  have hn := mkLine_name_inj (colonFree_agendadaName t)
    (colonFree_salaUsoName s t') h
  exact ne_of_head?
    (by rw [agendadaName_head?, salaUsoName_head?]; decide) hn

/-! ### The per-placement line group -/

theorem groupLines_mem {t sala d : Nat} {seq : List Nat} {l : String}
    (h : l ∈ groupLines t sala d seq) :
    (∃ p0 ∈ seq, ∃ p ∈ seq,
      l = contLine (xVar t sala p0) (xVar t sala p)) ∨
    l = agendadaLine t d (seq.map (fun p => xVar t sala p)) ∨
    l = salaUsoLine sala t d (seq.map (fun p => xVar t sala p)) := by
  cases seq with
  | nil => cases h
  | cons p0 ps =>
    rw [groupLines] at h
    simp only [List.map_cons] at h ⊢
    rcases List.mem_append.1 h with h1 | h1
    · obtain ⟨v, hv, hl⟩ := List.mem_map.1 h1
      obtain ⟨p, hp, hxv⟩ := List.mem_map.1 hv
      exact Or.inl ⟨p0, List.mem_cons_self _ _, p,
        List.mem_cons_of_mem _ hp, by rw [← hl, ← hxv]⟩
    · rcases List.mem_cons.1 h1 with h2 | h2
      · exact Or.inr (Or.inl h2)
      · exact Or.inr (Or.inr (by simpa using h2))

theorem groupLines_turma {t sala d : Nat} {seq : List Nat}
    {t' sala' d' : Nat} {seq' : List Nat} {l : String}
    (h : l ∈ groupLines t sala d seq)
    (h' : l ∈ groupLines t' sala' d' seq') : t = t' := by
  rcases groupLines_mem h with ⟨p0, -, p, -, rfl⟩ | rfl | rfl <;>
    rcases groupLines_mem h' with ⟨q0, -, q, -, he⟩ | he | he
  · exact (contLineX_inj he).1
  · exact absurd he contLineX_ne_agendadaLine
  · exact absurd he contLineX_ne_salaUsoLine
  · exact absurd he.symm contLineX_ne_agendadaLine
  · exact agendadaLine_turma he
  · exact absurd he agendadaLine_ne_salaUsoLine
  · exact absurd he.symm contLineX_ne_salaUsoLine
  · exact absurd he.symm agendadaLine_ne_salaUsoLine
  · exact (salaUsoLine_key he).2

theorem groupLines_nodup {t sala d : Nat} {seq : List Nat}
    (hnd : seq.Nodup) : (groupLines t sala d seq).Nodup := by
  cases seq with
  | nil => exact List.nodup_nil
  | cons p0 ps =>
    rw [groupLines]
    simp only [List.map_cons]
    rw [List.nodup_append]
    refine ⟨?_, ?_, ?_⟩
    · refine List.Nodup.map_on ?_ ?_
      · intro x hx y hy hxy
        obtain ⟨px, hpx, rfl⟩ := List.mem_map.1 hx
        obtain ⟨py, hpy, rfl⟩ := List.mem_map.1 hy
        have := (contLineX_inj hxy).2.2.2.2.2
        rw [this]
      · refine List.Nodup.map_on ?_ (List.nodup_cons.1 hnd).2
        intro x hx y hy hxy
        exact (xVar_inj hxy).2.2
    · simp only [List.nodup_cons, List.mem_singleton, List.nodup_nil]
      exact ⟨agendadaLine_ne_salaUsoLine, by simp⟩
    · intro l hl hl2
      obtain ⟨v, hv, hlv⟩ := List.mem_map.1 hl
      obtain ⟨p, hp, rfl⟩ := List.mem_map.1 hv
      rcases List.mem_cons.1 hl2 with h2 | h2
      · exact contLineX_ne_agendadaLine (hlv.symm ▸ h2)
      · have h3 : l = salaUsoLine sala t d
            (xVar t sala p0 :: List.map (fun p => xVar t sala p) ps) := by
          simpa using h2
        exact contLineX_ne_salaUsoLine (hlv.symm ▸ h3)

/-! ### The state invariant -/

theorem commit_eq (st : SState) (t sala docente duracao : Nat)
    (seq : List Nat) :
    commit st t sala docente duracao seq =
      { (groupLines t sala duracao seq).foldl writeIfNew
          (seq.foldl (commitPeriodo t sala docente) st) with
        placements :=
          ((groupLines t sala duracao seq).foldl writeIfNew
            (seq.foldl (commitPeriodo t sala docente) st)).placements ++
          [(t, sala, seq)] } := by
  cases seq with
  | nil => rfl
  | cons p0 ps =>
    have keyEq : (groupLines t sala duracao (p0 :: ps)).foldl writeIfNew
        ((p0 :: ps).foldl (commitPeriodo t sala docente) st) =
      writeIfNew (writeIfNew
        ((ps.map (fun p => xVar t sala p)).foldl
          (fun s v => writeIfNew s (contLine (xVar t sala p0) v))
          ((p0 :: ps).foldl (commitPeriodo t sala docente) st))
        (agendadaLine t duracao
          (xVar t sala p0 :: ps.map (fun p => xVar t sala p))))
        (salaUsoLine sala t duracao
          (xVar t sala p0 :: ps.map (fun p => xVar t sala p))) := by
      rw [groupLines]
      simp only [List.map_cons]
      rw [List.foldl_append, List.foldl_map]
      rfl
    rw [commit]
    simp only [List.map_cons]
    rw [keyEq]

theorem Inv.mono {input : Input} {done done' : List Nat} {st : SState}
    (h : Inv input done st) (hsub : ∀ x ∈ done, x ∈ done') :
    Inv input done' st :=
  { h with plProc := fun pl hpl => hsub _ (h.plProc pl hpl) }

theorem inv_init (input : Input) : Inv input [] ({} : SState) := by
  refine ⟨?_, ?_, ?_, ?_, ?_, ?_, ?_, ?_, ?_, ?_, ?_⟩ <;>
    simp [dget?, SState.placements, SState.body, SState.written]

theorem inv_commit {input : Input} {done : List Nat} {st : SState}
    {t semAtual : Nat} {c : Nat × List Nat}
    (hInv : Inv input done st) (ht : t ∉ done)
    (hsurv : survives input st t semAtual c = true)
    (hcons : consec c.2 = true) (hlen : c.2.length = turmaDuracao input t) :
    Inv input (done ++ [t])
      (commit st t c.1 (turmaDocente input t) (turmaDuracao input t) c.2) := by
  have hndseq : c.2.Nodup := consec_nodup hcons
  simp only [survives, Bool.and_eq_true, Bool.not_eq_true'] at hsurv
  obtain ⟨⟨hbasic, hsemr⟩, huc⟩ := hsurv
  rw [basicFreeFail] at hbasic
  simp only [Bool.or_eq_false_iff] at hbasic
  obtain ⟨⟨hbs, hbi⟩, hbd⟩ := hbasic
  have hsalaFree : ∀ p ∈ c.2, dmem st.salaOcc (c.1, p) = false :=
    fun p hp => Bool.eq_false_iff.mpr (List.any_eq_false.1 hbs p hp)
  have hdocFree : ∀ p ∈ c.2,
      dmem st.docOcc (turmaDocente input t, p) = false :=
    fun p hp => Bool.eq_false_iff.mpr (List.any_eq_false.1 hbd p hp)
  rw [commit_eq]
  set st1 := c.2.foldl (commitPeriodo t c.1 (turmaDocente input t)) st
    with hst1def
  set G := groupLines t c.1 (turmaDuracao input t) c.2 with hGdef
  have hstable := cpFold_stable t c.1 (turmaDocente input t) c.2 st
  have hfreshL : ∀ l ∈ G, l ∉ st1.body := by
    intro l hl hmem
    rw [hstable.1, hInv.bodyC] at hmem
    obtain ⟨pl, hpl, hlpl⟩ := List.mem_flatMap.1 hmem
    rw [plLines] at hlpl
    have heq : t = pl.1 := groupLines_turma hl hlpl
    exact ht (heq ▸ hInv.plProc pl hpl)
  obtain ⟨hbody, hwr, hsoc, hdoc, hdpv, hspv, hvars, hplc⟩ :=
    writeFold G st1
      (by intro l; rw [hstable.2.1, hstable.1]; exact hInv.writtenC l)
      hfreshL (groupLines_nodup hndseq)
  set stW := G.foldl writeIfNew st1 with hstWdef
  have hsOcc : ∀ s p, dget? stW.salaOcc (s, p) =
      if s = c.1 ∧ p ∈ c.2 then some t else dget? st.salaOcc (s, p) := by
    intro s p
    rw [hsoc]
    exact cpFold_salaOcc t c.1 (turmaDocente input t) c.2 st s p
  have hdOcc : ∀ d p, dget? stW.docOcc (d, p) =
      if d = turmaDocente input t ∧ p ∈ c.2 then some t
      else dget? st.docOcc (d, p) := by
    intro d p
    rw [hdoc]
    exact cpFold_docOcc t c.1 (turmaDocente input t) c.2 st d p
  have hplW : stW.placements = st.placements := by rw [hplc, hstable.2.2]
  have hbodyW : stW.body = st.body ++ G := by rw [hbody, hstable.1]
  refine ⟨?_, ?_, ?_, ?_, ?_, ?_, ?_, ?_, ?_, ?_, ?_⟩
  · -- plProc
    intro pl hpl
    simp only [hplW] at hpl
    rcases List.mem_append.1 hpl with h | h
    · exact List.mem_append.2 (Or.inl (hInv.plProc pl h))
    · have : pl = (t, c.1, c.2) := by simpa using h
      rw [this]
      exact List.mem_append.2 (Or.inr (by simp))
  · -- plT
    show ((stW.placements ++ [(t, c.1, c.2)]).map (fun pl => pl.1)).Nodup
    rw [hplW, List.map_append]
    simp only [List.map_cons, List.map_nil]
    rw [List.nodup_append]
    refine ⟨hInv.plT, by simp, ?_⟩
    intro x hx hx2
    have hxt : x = t := by simpa using hx2
    obtain ⟨pl, hpl, rfl⟩ := List.mem_map.1 hx
    exact ht (hxt ▸ hInv.plProc pl hpl)
  · -- plGood
    intro pl hpl
    simp only [hplW] at hpl
    rcases List.mem_append.1 hpl with h | h
    · exact hInv.plGood pl h
    · have : pl = (t, c.1, c.2) := by simpa using h
      rw [this]
      exact ⟨hcons, hlen⟩
  · -- salaOccC
    intro s p v
    show dget? stW.salaOcc (s, p) = some v ↔ _
    rw [hsOcc, hplW]
    by_cases hc2 : s = c.1 ∧ p ∈ c.2
    · rw [if_pos hc2]
      constructor
      · intro hv
        have hvt : v = t := by
          have := Option.some.inj hv
          omega
        exact ⟨(t, c.1, c.2), List.mem_append.2 (Or.inr (by simp)),
          by rw [hvt], hc2.1.symm, hc2.2⟩
      · rintro ⟨pl, hpl, rfl, hs, hp⟩
        rcases List.mem_append.1 hpl with h | h
        · exfalso
          have := (hInv.salaOccC s p pl.1).2 ⟨pl, h, rfl, hs, hp⟩
          have hd := (dmem_iff_dget? st.salaOcc (s, p)).2 ⟨pl.1, this⟩
          rw [hc2.1, hsalaFree p hc2.2] at hd
          cases hd
        · have : pl = (t, c.1, c.2) := by simpa using h
          rw [this]
    · rw [if_neg hc2]
      constructor
      · intro hv
        obtain ⟨pl, hpl, he, hs, hp⟩ := (hInv.salaOccC s p v).1 hv
        exact ⟨pl, List.mem_append.2 (Or.inl hpl), he, hs, hp⟩
      · rintro ⟨pl, hpl, rfl, hs, hp⟩
        rcases List.mem_append.1 hpl with h | h
        · exact (hInv.salaOccC s p pl.1).2 ⟨pl, h, rfl, hs, hp⟩
        · exfalso
          have : pl = (t, c.1, c.2) := by simpa using h
          rw [this] at hs hp
          exact hc2 ⟨hs.symm, hp⟩
  · -- docOccC
    intro d p v
    show dget? stW.docOcc (d, p) = some v ↔ _
    rw [hdOcc, hplW]
    by_cases hc2 : d = turmaDocente input t ∧ p ∈ c.2
    · rw [if_pos hc2]
      constructor
      · intro hv
        have hvt : v = t := by
          have := Option.some.inj hv
          omega
        exact ⟨(t, c.1, c.2), List.mem_append.2 (Or.inr (by simp)),
          by rw [hvt], by rw [hc2.1], hc2.2⟩
      · rintro ⟨pl, hpl, rfl, hs, hp⟩
        rcases List.mem_append.1 hpl with h | h
        · exfalso
          have := (hInv.docOccC d p pl.1).2 ⟨pl, h, rfl, hs, hp⟩
          have hd := (dmem_iff_dget? st.docOcc (d, p)).2 ⟨pl.1, this⟩
          rw [hc2.1, hdocFree p hc2.2] at hd
          cases hd
        · have : pl = (t, c.1, c.2) := by simpa using h
          rw [this]
    · rw [if_neg hc2]
      constructor
      · intro hv
        obtain ⟨pl, hpl, he, hs, hp⟩ := (hInv.docOccC d p v).1 hv
        exact ⟨pl, List.mem_append.2 (Or.inl hpl), he, hs, hp⟩
      · rintro ⟨pl, hpl, rfl, hs, hp⟩
        rcases List.mem_append.1 hpl with h | h
        · exact (hInv.docOccC d p pl.1).2 ⟨pl, h, rfl, hs, hp⟩
        · exfalso
          have hple : pl = (t, c.1, c.2) := by simpa using h
          apply hc2
          rw [hple] at hp
          rw [← hs, hple]
          exact ⟨rfl, hp⟩
  · -- varsC
    intro v
    show v ∈ stW.vars ↔ _
    rw [hvars, hplW]
    rw [cpFold_vars t c.1 (turmaDocente input t) c.2 st v]
    constructor
    · rintro (hv | ⟨p, hp, rfl⟩)
      · obtain ⟨pl, hpl, hx⟩ := (hInv.varsC v).1 hv
        exact ⟨pl, List.mem_append.2 (Or.inl hpl), hx⟩
      · exact ⟨(t, c.1, c.2), List.mem_append.2 (Or.inr (by simp)),
          p, hp, rfl⟩
    · rintro ⟨pl, hpl, p, hp, rfl⟩
      rcases List.mem_append.1 hpl with h | h
      · exact Or.inl ((hInv.varsC _).2 ⟨pl, h, p, hp, rfl⟩)
      · have : pl = (t, c.1, c.2) := by simpa using h
        rw [this]
        exact Or.inr ⟨p, by rw [this] at hp; exact hp, rfl⟩
  · -- varsN
    show stW.vars.Nodup
    rw [hvars]
    exact cpFold_varsNodup t c.1 (turmaDocente input t) c.2 st hInv.varsN
  · -- pvDoc
    intro e he
    show e.2.length ≤ 1 ∧ dmem stW.docOcc e.1 = true
    rw [hdpv] at he
    have hmemOf : ∀ k, dmem st.docOcc k = true → dmem stW.docOcc k = true := by
      intro k hk
      obtain ⟨v, hv⟩ := (dmem_iff_dget? st.docOcc k).1 hk
      apply (dmem_iff_dget? stW.docOcc k).2
      cases k with
      | mk d p =>
        rw [hdOcc d p]
        by_cases hif : d = turmaDocente input t ∧ p ∈ c.2
        · rw [if_pos hif]; exact ⟨t, rfl⟩
        · rw [if_neg hif]; exact ⟨v, hv⟩
    rcases cpFold_docPV t c.1 (turmaDocente input t) c.2 st
        (fun e' he' => (hInv.pvDoc e' he').2) hdocFree hndseq e he with
      h | ⟨p, hp, rfl⟩
    · exact ⟨(hInv.pvDoc e h).1, hmemOf e.1 (hInv.pvDoc e h).2⟩
    · refine ⟨by simp, ?_⟩
      apply (dmem_iff_dget? stW.docOcc _).2
      rw [hdOcc]
      rw [if_pos ⟨rfl, hp⟩]
      exact ⟨t, rfl⟩
  · -- pvSala
    intro e he
    show e.2.length ≤ 1 ∧ dmem stW.salaOcc e.1 = true
    rw [hspv] at he
    have hmemOf : ∀ k, dmem st.salaOcc k = true →
        dmem stW.salaOcc k = true := by
      intro k hk
      obtain ⟨v, hv⟩ := (dmem_iff_dget? st.salaOcc k).1 hk
      apply (dmem_iff_dget? stW.salaOcc k).2
      cases k with
      | mk s p =>
        rw [hsOcc s p]
        by_cases hif : s = c.1 ∧ p ∈ c.2
        · rw [if_pos hif]; exact ⟨t, rfl⟩
        · rw [if_neg hif]; exact ⟨v, hv⟩
    rcases cpFold_salaPV t c.1 (turmaDocente input t) c.2 st
        (fun e' he' => (hInv.pvSala e' he').2) hsalaFree hndseq e he with
      h | ⟨p, hp, rfl⟩
    · exact ⟨(hInv.pvSala e h).1, hmemOf e.1 (hInv.pvSala e h).2⟩
    · refine ⟨by simp, ?_⟩
      apply (dmem_iff_dget? stW.salaOcc _).2
      rw [hsOcc]
      rw [if_pos ⟨rfl, hp⟩]
      exact ⟨t, rfl⟩
  · -- bodyC
    show stW.body = (stW.placements ++ [(t, c.1, c.2)]).flatMap
      (plLines input)
    rw [hbodyW, hplW, List.flatMap_append, hInv.bodyC]
    simp [plLines, hGdef]
  · -- writtenC
    intro l
    show l ∈ stW.written ↔ l ∈ stW.body
    exact hwr l

theorem inv_process {input : Input} {enum : List Nat → List Nat}
    {done : List Nat} {st : SState} {t : Nat}
    (hInv : Inv input done st) (ht : t ∉ done) :
    Inv input (done ++ [t]) (processTurma input enum st t) := by
  have hsub : ∀ x ∈ done, x ∈ done ++ [t] := fun x hx =>
    List.mem_append.2 (Or.inl hx)
  cases hsem : ucSemestreOf input (turmaUc input t) with
  | none =>
    simp only [processTurma, hsem]
    exact hInv.mono hsub
  | some semAtual =>
    simp only [processTurma, hsem]
    by_cases hempty : (salasPermitidas enum input t).isEmpty
    · rw [if_pos hempty]
      exact hInv.mono hsub
    · rw [if_neg hempty]
      cases halloc : allocTurma input enum st t semAtual with
      | none => exact hInv.mono hsub
      | some c =>
        show Inv input (done ++ [t])
          (commit st t c.1 (turmaDocente input t) (turmaDuracao input t) c.2)
        rw [allocTurma_eq] at halloc
        have hsurv : survives input st t semAtual c = true :=
          List.find?_some halloc
        have hcand : c ∈ candidates input enum t :=
          List.mem_of_find?_eq_some halloc
        obtain ⟨-, hcons, hlen⟩ := mem_candidates hcand
        exact inv_commit hInv ht hsurv hcons hlen

theorem inv_fold {input : Input} {enum : List Nat → List Nat} :
    ∀ (todo done : List Nat) (st : SState), Inv input done st →
      (∀ x ∈ todo, x ∉ done) → todo.Nodup →
      Inv input (done ++ todo) (todo.foldl (processTurma input enum) st)
  | [], _, _, hInv, _, _ => by simpa using hInv
  | t :: todo, done, st, hInv, hdisj, hnd => by
    rw [List.foldl_cons]
    have h1 : Inv input (done ++ [t]) (processTurma input enum st t) :=
      inv_process hInv (hdisj t (List.mem_cons_self _ _))
    have h2 := @inv_fold input enum todo (done ++ [t]) _ h1
      (by
        intro x hx hmem
        rcases List.mem_append.1 hmem with h | h
        · exact hdisj x (List.mem_cons_of_mem _ hx) h
        · have hxt : x = t := by simpa using h
          exact (List.nodup_cons.1 hnd).1 (hxt ▸ hx))
      (List.nodup_cons.1 hnd).2
    simpa [List.append_assoc] using h2

theorem inv_run (input : Input) (enum : List Nat → List Nat) (k : Nat) :
    Inv input (List.take k (turmaSet input))
      ((List.take k (turmaSet input)).foldl (processTurma input enum)
        {}) := by
  have hnd : (List.take k (turmaSet input)).Nodup :=
    (List.take_sublist k (turmaSet input)).nodup (turmaSet_nodup input)
  simpa using inv_fold (List.take k (turmaSet input)) [] {} (inv_init input)
    (by simp) hnd

theorem inv_runState (input : Input) (enum : List Nat → List Nat) :
    Inv input (turmaSet input) (runState input enum) := by
  simpa using inv_fold (turmaSet input) [] {} (inv_init input) (by simp)
    (turmaSet_nodup input)

/-- C2: after processing any prefix of the section list (hence on every
input and after every section), every committed placement's period block is
contiguous with exactly the section's duration many periods; no two
placements share a (room, period) pair; and placements of sections sharing
a teacher never share a period. -/
theorem claim_C2 (input : Input) (enum : List Nat → List Nat) (k : Nat) :
    (∀ pl ∈ ((List.take k (turmaSet input)).foldl (processTurma input enum)
        {}).placements,
      consec pl.2.2 = true ∧ pl.2.2.length = turmaDuracao input pl.1) ∧
    List.Pairwise (fun pl₁ pl₂ =>
      (pl₁.2.1 = pl₂.2.1 → ∀ p ∈ pl₁.2.2, p ∉ pl₂.2.2) ∧
      (turmaDocente input pl₁.1 = turmaDocente input pl₂.1 →
        ∀ p ∈ pl₁.2.2, p ∉ pl₂.2.2))
      ((List.take k (turmaSet input)).foldl (processTurma input enum)
        {}).placements := by
  have hInv := inv_run input enum k
  refine ⟨fun pl hpl => hInv.plGood pl hpl, ?_⟩
  have hpw : List.Pairwise (fun pl₁ pl₂ =>
      (pl₁ : Nat × Nat × List Nat).1 ≠ pl₂.1)
      ((List.take k (turmaSet input)).foldl (processTurma input enum)
        {}).placements :=
    List.pairwise_map.1 hInv.plT
  refine hpw.imp_of_mem ?_
  intro pl₁ pl₂ h₁ h₂ hne
  constructor
  · intro hs p hp hp2
    apply hne
    have e₁ := (hInv.salaOccC pl₁.2.1 p pl₁.1).2 ⟨pl₁, h₁, rfl, rfl, hp⟩
    have e₂ := (hInv.salaOccC pl₁.2.1 p pl₂.1).2 ⟨pl₂, h₂, rfl, hs.symm, hp2⟩
    rw [e₁] at e₂
    exact Option.some.inj e₂
  · intro hs p hp hp2
    apply hne
    have e₁ := (hInv.docOccC (turmaDocente input pl₁.1) p pl₁.1).2
      ⟨pl₁, h₁, rfl, rfl, hp⟩
    have e₂ := (hInv.docOccC (turmaDocente input pl₁.1) p pl₂.1).2
      ⟨pl₂, h₂, rfl, hs.symm, hp2⟩
    rw [e₁] at e₂
    exact Option.some.inj e₂

/-- C3: for every committed placement with a nonempty block, the emitted
model contains the continuity constraints tying every block variable to the
first, the full-allocation constraint equating the block sum to the
duration, and the room-usage linkage constraint. -/
theorem claim_C3 (input : Input) (enum : List Nat → List Nat)
    (pl : Nat × Nat × List Nat)
    (hpl : pl ∈ (runState input enum).placements) (hne : pl.2.2 ≠ []) :
    ∃ v0 rest, pl.2.2.map (fun p => xVar pl.1 pl.2.1 p) = v0 :: rest ∧
      (∀ v ∈ rest, contLine v0 v ∈ bodyAll input enum) ∧
      agendadaLine pl.1 (turmaDuracao input pl.1) (v0 :: rest) ∈
        bodyAll input enum ∧
      salaUsoLine pl.2.1 pl.1 (turmaDuracao input pl.1) (v0 :: rest) ∈
        bodyAll input enum := by
  have hInv := inv_runState input enum
  have hsub : ∀ l ∈ plLines input pl, l ∈ bodyAll input enum := by
    intro l hl
    rw [bodyAll]
    refine List.mem_append.2 (Or.inl ?_)
    refine List.mem_append.2 (Or.inl ?_)
    refine List.mem_append.2 (Or.inl ?_)
    refine List.mem_append.2 (Or.inl ?_)
    rw [hInv.bodyC]
    exact List.mem_flatMap.2 ⟨pl, hpl, hl⟩
  obtain ⟨t, sala, seq⟩ := pl
  cases seq with
  | nil => exact absurd rfl hne
  | cons p0 ps =>
    refine ⟨xVar t sala p0, ps.map (fun p => xVar t sala p), by simp, ?_, ?_, ?_⟩
    · intro v hv
      apply hsub
      rw [plLines, groupLines]
      simp only [List.map_cons]
      exact List.mem_append.2 (Or.inl (List.mem_map.2 ⟨v, hv, rfl⟩))
    · apply hsub
      rw [plLines, groupLines]
      simp only [List.map_cons]
      exact List.mem_append.2 (Or.inr (by simp))
    · apply hsub
      rw [plLines, groupLines]
      simp only [List.map_cons]
      exact List.mem_append.2 (Or.inr (by simp))

/-- C5: a candidate block is rejected by the semester-exclusivity check
exactly when the section's label id is 1 (the "theoretical" label) and
some period of the block is occupied, in any room, by an already-placed
section whose curricular unit has the same semester number; sections with
other labels are never rejected by this check. -/
theorem claim_C5 (input : Input) (st : SState) (semAtual label : Nat)
    (seq : List Nat) :
    semRejects input st semAtual label seq = true ↔
      label = 1 ∧ ∃ p ∈ seq, ∃ e ∈ st.salaOcc, e.1.2 = p ∧
        (dictLast (turmaPairs input (fun x => x.uc)) e.2).bind
          (dictLast input.ucSemestre) = some semAtual := by
  rw [semRejects, Bool.and_eq_true]
  constructor
  · rintro ⟨hl, hc⟩
    refine ⟨by simpa using hl, ?_⟩
    rw [semConflict, List.any_eq_true] at hc
    obtain ⟨p, hp, hin⟩ := hc
    rw [List.any_eq_true] at hin
    obtain ⟨tA, htA, hmat⟩ := hin
    obtain ⟨e, he, rfl⟩ := List.mem_map.1 htA
    have hep : e.1.2 = p := by
      have := (List.mem_filter.1 he).2
      simpa using this
    refine ⟨p, hp, e, (List.mem_filter.1 he).1, hep, ?_⟩
    cases hdl : dictLast (turmaPairs input (fun x => x.uc)) e.2 with
    | none => rw [hdl] at hmat; cases hmat
    | some ucA =>
      rw [hdl] at hmat
      simpa using hmat
  · rintro ⟨hl, p, hp, e, he, hep, hbind⟩
    refine ⟨by simpa using hl, ?_⟩
    rw [semConflict, List.any_eq_true]
    refine ⟨p, hp, ?_⟩
    rw [List.any_eq_true]
    refine ⟨e.2, List.mem_map.2 ⟨e, List.mem_filter.2 ⟨he, by simpa using hep⟩,
      rfl⟩, ?_⟩
    cases hdl : dictLast (turmaPairs input (fun x => x.uc)) e.2 with
    | none => rw [hdl] at hbind; cases hbind
    | some ucA =>
      rw [hdl] at hbind
      simpa using hbind

/-- C9: in the final state of the per-section pass, every key of the
teacher and room conflict-variable dicts holds at most one variable name,
so the duplicate-booking branches are unreachable and no
`docente_..._conflito` or `sala_..._conflito` line is ever emitted. -/
theorem claim_C9 (input : Input) (enum : List Nat → List Nat) :
    (∀ e ∈ (runState input enum).docPV, e.2.length ≤ 1) ∧
    (∀ e ∈ (runState input enum).salaPV, e.2.length ≤ 1) ∧
    confLinesOf input (fun k => docConfName k.1 k.2)
      (runState input enum).docPV = [] ∧
    confLinesOf input (fun k => salaConfName k.1 k.2)
      (runState input enum).salaPV = [] := by
  have hInv := inv_runState input enum
  have hd : ∀ e ∈ (runState input enum).docPV, e.2.length ≤ 1 :=
    fun e he => (hInv.pvDoc e he).1
  have hs : ∀ e ∈ (runState input enum).salaPV, e.2.length ≤ 1 :=
    fun e he => (hInv.pvSala e he).1
  refine ⟨hd, hs, ?_, ?_⟩
  · rw [confLinesOf, List.flatMap_eq_nil_iff]
    intro e he
    rw [if_neg (by simpa using hd e he)]
  · rw [confLinesOf, List.flatMap_eq_nil_iff]
    intro e he
    rw [if_neg (by simpa using hs e he)]

/-! ### The mutual-exclusion table and its invariant -/

theorem restricoes_symm {a b : Nat} (h : b ∈ restricoesEntreUcs a) :
    a ∈ restricoesEntreUcs b := by
  rw [restricoesEntreUcs] at h
  split_ifs at h with h1 h2 h3 h4 h5 h6 h7 h8
  · subst h1; simp at h; subst h; decide
  · subst h2; simp at h; subst h; decide
  · subst h3
    simp at h
    rcases h with rfl | rfl | rfl <;> decide
  · subst h4; simp at h; subst h; decide
  · subst h5; simp at h; subst h; decide
  · subst h6; simp at h; subst h; decide
  · subst h7; simp at h; subst h; decide
  · subst h8; simp at h; subst h; decide
  · simp at h

theorem restricoes_irrefl (a : Nat) : a ∉ restricoesEntreUcs a := by
  intro h
  rw [restricoesEntreUcs] at h
  split_ifs at h with h1 h2 h3 h4 h5 h6 h7 h8
  · subst h1; simp at h
  · subst h2; simp at h
  · subst h3; simp at h
  · subst h4; simp at h
  · subst h5; simp at h
  · subst h6; simp at h
  · subst h7; simp at h
  · subst h8; simp at h
  · simp at h

theorem turmaUc_mem_turmasOfUc {input : Input} {t : Nat}
    (hmem : t ∈ input.turmas.map (fun x => x.id)) :
    t ∈ turmasOfUc input (turmaUc input t) := by
  have hany : ∃ pr ∈ (turmaPairs input (fun x => x.uc)).reverse,
      (pr.1 == t) = true := by
    obtain ⟨x, hx, rfl⟩ := List.mem_map.1 hmem
    exact ⟨(x.id, x.uc), List.mem_reverse.2 (List.mem_map.2 ⟨x, hx, rfl⟩),
      by simp⟩
  have hsome := List.find?_isSome.2 hany
  cases hfind : List.find? (fun pr => pr.1 == t)
      (turmaPairs input (fun x => x.uc)).reverse with
  | none => rw [hfind] at hsome; cases hsome
  | some pr =>
    have hpr1 : pr.1 = t := by simpa using List.find?_some hfind
    have hprm : pr ∈ turmaPairs input (fun x => x.uc) :=
      List.mem_reverse.1 (List.mem_of_find?_eq_some hfind)
    obtain ⟨x, hx, hxe⟩ := List.mem_map.1 hprm
    have huc : turmaUc input t = pr.2 := by
      rw [turmaUc, dictLast, hfind]
      rfl
    rw [huc, ← hxe]
    exact List.mem_map.2 ⟨x, List.mem_filter.2 ⟨hx, by simp⟩, by
      rw [← hxe] at hpr1
      simpa using hpr1⟩

theorem wFold_stable : ∀ (L : List String) (st : SState),
    ((L.foldl writeIfNew st).salaOcc = st.salaOcc ∧
     (L.foldl writeIfNew st).docOcc = st.docOcc) ∧
    ((L.foldl writeIfNew st).docPV = st.docPV ∧
     (L.foldl writeIfNew st).salaPV = st.salaPV) ∧
    (L.foldl writeIfNew st).vars = st.vars ∧
    (L.foldl writeIfNew st).placements = st.placements
  | [], _ => ⟨⟨rfl, rfl⟩, ⟨rfl, rfl⟩, rfl, rfl⟩
  | l :: L, st => by
    rw [List.foldl_cons]
    have hrest := wFold_stable L (writeIfNew st l)
    have hw := writeIfNew_stable st l
    exact ⟨⟨hrest.1.1.trans hw.1, hrest.1.2.trans hw.2.1⟩,
      ⟨hrest.2.1.1.trans hw.2.2.1, hrest.2.1.2.trans hw.2.2.2.1⟩,
      hrest.2.2.1.trans hw.2.2.2.2.1, hrest.2.2.2.trans hw.2.2.2.2.2⟩

theorem commit_placements (st : SState) (t sala docente duracao : Nat)
    (seq : List Nat) :
    (commit st t sala docente duracao seq).placements =
      st.placements ++ [(t, sala, seq)] := by
  rw [commit_eq]
  show ((groupLines t sala duracao seq).foldl writeIfNew
    (seq.foldl (commitPeriodo t sala docente) st)).placements ++
      [(t, sala, seq)] = _
  rw [(wFold_stable _ _).2.2.2, (cpFold_stable t sala docente seq st).2.2]

theorem exclInv_commit {input : Input} {done : List Nat} {st : SState}
    {t semAtual : Nat} {c : Nat × List Nat}
    (hInv : Inv input done st)
    (hids : ∀ x ∈ done, x ∈ input.turmas.map (fun x => x.id))
    (hsurv : survives input st t semAtual c = true)
    (hrooms : RoomsIn input st) (hexcl : ExclInv input st) :
    ExclInv input
      (commit st t c.1 (turmaDocente input t) (turmaDuracao input t)
        c.2) := by
  simp only [survives, Bool.and_eq_true, Bool.not_eq_true'] at hsurv
  obtain ⟨⟨-, -⟩, huc⟩ := hsurv
  rw [ucConflict] at huc
  have hucAll := List.any_eq_false.1 huc
  have hblock : ∀ pl ∈ st.placements,
      turmaUc input pl.1 ∈ restricoesEntreUcs (turmaUc input t) →
      ∀ p ∈ c.2, p ∉ pl.2.2 := by
    intro pl hpl hrel p hp hp2
    apply hucAll (turmaUc input pl.1) hrel
    rw [List.any_eq_true]
    refine ⟨pl.1, turmaUc_mem_turmasOfUc (hids pl.1 (hInv.plProc pl hpl)),
      ?_⟩
    rw [List.any_eq_true]
    refine ⟨p, hp, ?_⟩
    rw [List.any_eq_true]
    refine ⟨pl.2.1, hrooms pl hpl, ?_⟩
    have := (hInv.salaOccC pl.2.1 p pl.1).2 ⟨pl, hpl, rfl, rfl, hp2⟩
    rw [this]
    simp
  intro pl₁ hpl₁ pl₂ hpl₂ hrel p hp hp2
  rw [commit_placements] at hpl₁ hpl₂
  rcases List.mem_append.1 hpl₁ with h₁ | h₁ <;>
    rcases List.mem_append.1 hpl₂ with h₂ | h₂
  · exact hexcl pl₁ h₁ pl₂ h₂ hrel p hp hp2
  · have he₂ : pl₂ = (t, c.1, c.2) := by simpa using h₂
    have hrel' : turmaUc input pl₁.1 ∈
        restricoesEntreUcs (turmaUc input t) := by
      rw [he₂] at hrel
      exact restricoes_symm hrel
    rw [he₂] at hp2
    exact hblock pl₁ h₁ hrel' p hp2 hp
  · have he₁ : pl₁ = (t, c.1, c.2) := by simpa using h₁
    rw [he₁] at hp
    rw [he₁] at hrel
    exact hblock pl₂ h₂ hrel p hp hp2
  · have he₁ : pl₁ = (t, c.1, c.2) := by simpa using h₁
    have he₂ : pl₂ = (t, c.1, c.2) := by simpa using h₂
    rw [he₁, he₂] at hrel
    exact restricoes_irrefl _ hrel

theorem excl_fold {input : Input} {enum : List Nat → List Nat}
    (henum : ∀ l, ∀ x ∈ enum l, x ∈ l)
    (hri : ∀ pr ∈ input.ucSala, pr.2 ∈ input.salas) :
    ∀ (todo done : List Nat) (st : SState), Inv input done st →
      (∀ x ∈ todo, x ∉ done) → todo.Nodup →
      (∀ x ∈ done, x ∈ input.turmas.map (fun x => x.id)) →
      (∀ x ∈ todo, x ∈ input.turmas.map (fun x => x.id)) →
      RoomsIn input st → ExclInv input st →
      RoomsIn input (todo.foldl (processTurma input enum) st) ∧
        ExclInv input (todo.foldl (processTurma input enum) st)
  | [], _, _, _, _, _, _, _, hrooms, hexcl => ⟨hrooms, hexcl⟩
  | t :: todo, done, st, hInv, hdisj, hnd, hids, htodo, hrooms, hexcl =>
    by
    rw [List.foldl_cons]
    have hnext : RoomsIn input (processTurma input enum st t) ∧
        ExclInv input (processTurma input enum st t) := by
      cases hsem : ucSemestreOf input (turmaUc input t) with
      | none =>
        simp only [processTurma, hsem]
        exact ⟨hrooms, hexcl⟩
      | some semAtual =>
        simp only [processTurma, hsem]
        by_cases hempty : (salasPermitidas enum input t).isEmpty
        · rw [if_pos hempty]
          exact ⟨hrooms, hexcl⟩
        · rw [if_neg hempty]
          cases halloc : allocTurma input enum st t semAtual with
          | none => exact ⟨hrooms, hexcl⟩
          | some c =>
            show RoomsIn input (commit st t c.1 (turmaDocente input t)
                (turmaDuracao input t) c.2) ∧
              ExclInv input (commit st t c.1 (turmaDocente input t)
                (turmaDuracao input t) c.2)
            rw [allocTurma_eq] at halloc
            have hsurv : survives input st t semAtual c = true :=
              List.find?_some halloc
            have hcand : c ∈ candidates input enum t :=
              List.mem_of_find?_eq_some halloc
            obtain ⟨hsala, -, -⟩ := mem_candidates hcand
            have hc1 : c.1 ∈ input.salas := by
              rw [salasPermitidas] at hsala
              have := henum _ _ hsala
              obtain ⟨pr, hpr, hpre⟩ := List.mem_map.1 this
              exact hpre ▸ hri pr (List.mem_filter.1 hpr).1
            refine ⟨?_, exclInv_commit hInv hids hsurv hrooms hexcl⟩
            intro pl hpl
            rw [commit_placements] at hpl
            rcases List.mem_append.1 hpl with h | h
            · exact hrooms pl h
            · have : pl = (t, c.1, c.2) := by simpa using h
              rw [this]
              exact hc1
    have hInv' : Inv input (done ++ [t]) (processTurma input enum st t) :=
      inv_process hInv (hdisj t (List.mem_cons_self _ _))
    exact excl_fold henum hri todo (done ++ [t]) _ hInv'
      (by
        intro x hx hmem
        rcases List.mem_append.1 hmem with h | h
        · exact hdisj x (List.mem_cons_of_mem _ hx) h
        · have hxt : x = t := by simpa using h
          exact (List.nodup_cons.1 hnd).1 (hxt ▸ hx))
      (List.nodup_cons.1 hnd).2
      (by
        intro x hx
        rcases List.mem_append.1 hx with h | h
        · exact hids x h
        · have hxt : x = t := by simpa using h
          exact hxt ▸ htodo t (List.mem_cons_self _ _))
      (fun x hx => htodo x (List.mem_cons_of_mem _ hx))
      hnext.1 hnext.2

/-- C4 (counterexample): on an input whose room-eligibility table points a
restricted unit at a room absent from the rooms table, two placements of
mutually-excluded units (3 and 5) share a period: the cross-unit scan only
inspects rooms of `salas['id']` and misses the placement in room 99. -/
theorem claim_C4_counterexample :
    ∃ pl₁ ∈ (runState inpX (fun l => l)).placements,
      ∃ pl₂ ∈ (runState inpX (fun l => l)).placements,
        turmaUc inpX pl₂.1 ∈ restricoesEntreUcs (turmaUc inpX pl₁.1) ∧
        ∃ p, p ∈ pl₁.2.2 ∧ p ∈ pl₂.2.2 := by decide

/-- C4 (amended): provided every realized set-enumeration returns only
members of its argument and every room referenced by the room-eligibility
relation occurs in the rooms table, no accepted placement of a unit-a
section shares a period with an accepted placement of a unit-b section,
for every pair (a, b) of the mutual-exclusion table. -/
theorem claim_C4 (input : Input) (enum : List Nat → List Nat)
    (henum : ∀ l, ∀ x ∈ enum l, x ∈ l)
    (hri : ∀ pr ∈ input.ucSala, pr.2 ∈ input.salas) :
    ∀ pl₁ ∈ (runState input enum).placements,
      ∀ pl₂ ∈ (runState input enum).placements,
        turmaUc input pl₂.1 ∈ restricoesEntreUcs (turmaUc input pl₁.1) →
        ∀ p ∈ pl₁.2.2, p ∉ pl₂.2.2 := by
  have h := excl_fold henum hri (turmaSet input) [] {} (inv_init input)
    (by simp) (turmaSet_nodup input) (by simp)
    (fun x hx => mem_turmaSet.1 hx)
    (fun pl hpl => absurd hpl (List.not_mem_nil pl))
    (fun pl₁ hpl₁ => absurd hpl₁ (List.not_mem_nil pl₁))
  exact h.2

/-- C4 witness: the amended theorem applied to the basic feasible input. -/
theorem claim_C4_witness :
    (∀ pr ∈ inpA.ucSala, pr.2 ∈ inpA.salas) ∧
    (∀ pl₁ ∈ (runState inpA (fun l => l)).placements,
      ∀ pl₂ ∈ (runState inpA (fun l => l)).placements,
        turmaUc inpA pl₂.1 ∈ restricoesEntreUcs (turmaUc inpA pl₁.1) →
        ∀ p ∈ pl₁.2.2, p ∉ pl₂.2.2) :=
  ⟨by decide, claim_C4 inpA (fun l => l) (fun _ _ h => h) (by decide)⟩

/-- C6: rooms are not scanned in ascending id order; the committed room
depends on the realized enumeration order of `list(set(...))`.  Unit 4 may
use rooms 1 and 8; with the identity enumeration the section lands in room
1, with the reversed enumeration (the order CPython's hash layout yields
for the set {8, 1}, room 8 in slot 0) it lands in room 8, so the output is
not determined by ascending room id. -/
theorem claim_C6 :
    salasPermitidas (fun l => l) inpOrd 1 = [1, 8] ∧
    (runState inpOrd (fun l => l)).placements = [(1, 1, [1])] ∧
    (runState inpOrd (fun l => l.reverse)).placements = [(1, 8, [1])] ∧
    (runState inpOrd (fun l => l)).placements ≠
      (runState inpOrd (fun l => l.reverse)).placements := by decide

/-- C10: the global exclusion constraint for the pair (3, 5) at period 1
is built from the variable of every (section-of-unit, room) combination;
on this input it references `x1_2_1`, which no placement created, so the
emitted model mentions a variable name that the `Binary` section does not
declare. -/
theorem claim_C10 :
    "x1_2_1" ∈ restricaoVarsFor inpU 3 1 ∧
    mkLine (restricaoName 3 5 1) (joinPlus ["x1_1_1", "x1_2_1"] ++ " <= 1") ∈
      bodyAll inpU (fun l => l) ∧
    "x1_2_1" ∉ (runState inpU (fun l => l)).vars ∧
    "x1_2_1" ∉ binaryDecls inpU (fun l => l) := by decide

/-- C8: a section with no eligible room, or for which no room/window
survives the checks at its turn, is skipped without failure: the state is
unchanged at its turn (so the pass continues with the subsequent
sections), it gets no placement, no decision variable of it is created,
the constraint lines of the greedy pass are exactly the committed
placements' lines (so no per-section constraint of the failed section is
emitted), and no emitted line bears its allocation-constraint name. -/
theorem claim_C8 (input : Input) (enum : List Nat → List Nat)
    (pre post : List Nat) (t : Nat)
    (hsplit : turmaSet input = pre ++ t :: post)
    (hfail : salasPermitidas enum input t = [] ∨
      ∀ semAtual, ucSemestreOf input (turmaUc input t) = some semAtual →
        allocTurma input enum (pre.foldl (processTurma input enum) {}) t
          semAtual = none) :
    runState input enum =
      post.foldl (processTurma input enum)
        (pre.foldl (processTurma input enum) {}) ∧
    (∀ pl ∈ (runState input enum).placements, pl.1 ≠ t) ∧
    (∀ s p, xVar t s p ∉ (runState input enum).vars) ∧
    (runState input enum).body =
      (runState input enum).placements.flatMap (plLines input) ∧
    (∀ l ∈ (runState input enum).body, nameOf l ≠ agendadaName t) := by
  have hndfull := turmaSet_nodup input
  rw [hsplit] at hndfull
  rw [List.nodup_append] at hndfull
  obtain ⟨hpre, hconsnd, hdisj⟩ := hndfull
  have htpre : t ∉ pre := fun h => hdisj h (List.mem_cons_self _ _)
  have htpost : t ∉ post := (List.nodup_cons.1 hconsnd).1
  have hpost : post.Nodup := (List.nodup_cons.1 hconsnd).2
  have hmid : processTurma input enum
      (pre.foldl (processTurma input enum) {}) t =
      pre.foldl (processTurma input enum) {} := by
    cases hsem : ucSemestreOf input (turmaUc input t) with
    | none => simp only [processTurma, hsem]
    | some semAtual =>
      simp only [processTurma, hsem]
      rcases hfail with hempty | hall
      · rw [if_pos (by rw [hempty]; rfl)]
      · by_cases he : (salasPermitidas enum input t).isEmpty
        · rw [if_pos he]
        · rw [if_neg he, hall semAtual hsem]
  have hrun : runState input enum =
      post.foldl (processTurma input enum)
        (pre.foldl (processTurma input enum) {}) := by
    rw [runState, hsplit, List.foldl_append, List.foldl_cons, hmid]
  have hInvPre : Inv input pre (pre.foldl (processTurma input enum) {}) :=
    by simpa using inv_fold pre [] {} (inv_init input) (by simp) hpre
  have hInvF : Inv input (pre ++ post)
      (post.foldl (processTurma input enum)
        (pre.foldl (processTurma input enum) {})) :=
    inv_fold post pre _ hInvPre
      (fun x hx hmem => hdisj hmem (List.mem_cons_of_mem _ hx)) hpost
  rw [hrun]
  have hnot : ∀ pl ∈ (post.foldl (processTurma input enum)
      (pre.foldl (processTurma input enum) {})).placements, pl.1 ≠ t := by
    intro pl hpl he
    rcases List.mem_append.1 (hInvF.plProc pl hpl) with h | h
    · exact htpre (he ▸ h)
    · exact htpost (he ▸ h)
  refine ⟨rfl, hnot, ?_, hInvF.bodyC, ?_⟩
  · intro s p hv
    obtain ⟨pl, hpl, q, hq, hx⟩ := (hInvF.varsC _).1 hv
    exact hnot pl hpl ((xVar_inj hx).1.symm)
  · intro l hl hname
    rw [hInvF.bodyC] at hl
    obtain ⟨pl, hpl, hlpl⟩ := List.mem_flatMap.1 hl
    rw [plLines] at hlpl
    rcases groupLines_mem hlpl with ⟨p0, -, p, -, rfl⟩ | rfl | rfl
    · rw [contLine, nameOf_mkLine (colonFree_contName (colonFree_xVar _ _ _)
        (colonFree_xVar _ _ _))] at hname
      exact ne_of_head? (by
        rw [contName_head?, agendadaName_head?]
        decide) hname
    · rw [agendadaLine, nameOf_mkLine (colonFree_agendadaName _)] at hname
      exact hnot pl hpl (agendadaName_inj hname)
    · rw [salaUsoLine, nameOf_mkLine (colonFree_salaUsoName _ _)] at hname
      exact ne_of_head? (by
        rw [salaUsoName_head?, agendadaName_head?]
        decide) hname

/-- C8 witness: on the input whose only section cannot be placed (teacher
unavailable at period 2), the section ends with no placement. -/
theorem claim_C8_witness :
    turmaSet inpFail = [] ++ 1 :: [] ∧
    (∀ pl ∈ (runState inpFail (fun l => l)).placements, pl.1 ≠ 1) :=
  ⟨by decide, (claim_C8 inpFail (fun l => l) [] [] 1 (by decide)
    (Or.inr (by
      intro semAtual hsem
      have hc : ucSemestreOf inpFail (turmaUc inpFail 1) = some 1 := by
        decide
      rw [hc] at hsem
      injection hsem with hs
      rw [← hs]
      decide))).2.1⟩

/-! ### Name uniqueness of the emitted model -/

theorem confLinesOf_nil {input : Input} {nameOfKey : Nat × Nat → String}
    {m : List ((Nat × Nat) × List String)}
    (h : ∀ e ∈ m, e.2.length ≤ 1) :
    confLinesOf input nameOfKey m = [] := by
  rw [confLinesOf, List.flatMap_eq_nil_iff]
  intro e he
  rw [if_neg (by simpa using h e he)]

theorem groupNames_mem {t sala d : Nat} {seq : List Nat} {n : String}
    (h : n ∈ (groupLines t sala d seq).map nameOf) :
    (∃ p0 ∈ seq, ∃ p ∈ seq,
      n = contName (xVar t sala p0) (xVar t sala p)) ∨
    n = agendadaName t ∨ n = salaUsoName sala t := by
  obtain ⟨l, hl, rfl⟩ := List.mem_map.1 h
  rcases groupLines_mem hl with ⟨p0, hp0, p, hp, rfl⟩ | rfl | rfl
  · exact Or.inl ⟨p0, hp0, p, hp, by
      rw [contLine, nameOf_mkLine (colonFree_contName (colonFree_xVar _ _ _)
        (colonFree_xVar _ _ _))]⟩
  · exact Or.inr (Or.inl (by
      rw [agendadaLine, nameOf_mkLine (colonFree_agendadaName _)]))
  · exact Or.inr (Or.inr (by
      rw [salaUsoLine, nameOf_mkLine (colonFree_salaUsoName _ _)]))

theorem groupNames_nodup {t sala d : Nat} {seq : List Nat}
    (hnd : seq.Nodup) : ((groupLines t sala d seq).map nameOf).Nodup := by
  refine List.Nodup.map_on ?_ (groupLines_nodup hnd)
  intro l₁ h₁ l₂ h₂ hn
  rcases groupLines_mem h₁ with ⟨p0, -, p, -, rfl⟩ | rfl | rfl <;>
    rcases groupLines_mem h₂ with ⟨q0, -, q, -, rfl⟩ | rfl | rfl
  · rw [contLine, contLine,
      nameOf_mkLine (colonFree_contName (colonFree_xVar _ _ _)
        (colonFree_xVar _ _ _)),
      nameOf_mkLine (colonFree_contName (colonFree_xVar _ _ _)
        (colonFree_xVar _ _ _))] at hn
    obtain ⟨-, -, h3, -, -, h6⟩ := contNameX_inj hn
    rw [h3, h6]
  · rw [contLine, agendadaLine,
      nameOf_mkLine (colonFree_contName (colonFree_xVar _ _ _)
        (colonFree_xVar _ _ _)),
      nameOf_mkLine (colonFree_agendadaName _)] at hn
    exact absurd hn (ne_of_head?
      (by rw [contName_head?, agendadaName_head?]; decide))
  · rw [contLine, salaUsoLine,
      nameOf_mkLine (colonFree_contName (colonFree_xVar _ _ _)
        (colonFree_xVar _ _ _)),
      nameOf_mkLine (colonFree_salaUsoName _ _)] at hn
    exact absurd hn (ne_of_head?
      (by rw [contName_head?, salaUsoName_head?]; decide))
  · rw [agendadaLine, contLine, nameOf_mkLine (colonFree_agendadaName _),
      nameOf_mkLine (colonFree_contName (colonFree_xVar _ _ _)
        (colonFree_xVar _ _ _))] at hn
    exact absurd hn.symm (ne_of_head?
      (by rw [contName_head?, agendadaName_head?]; decide))
  · rfl
  · rw [agendadaLine, salaUsoLine, nameOf_mkLine (colonFree_agendadaName _),
      nameOf_mkLine (colonFree_salaUsoName _ _)] at hn
    exact absurd hn (ne_of_head?
      (by rw [agendadaName_head?, salaUsoName_head?]; decide))
  · rw [salaUsoLine, contLine, nameOf_mkLine (colonFree_salaUsoName _ _),
      nameOf_mkLine (colonFree_contName (colonFree_xVar _ _ _)
        (colonFree_xVar _ _ _))] at hn
    exact absurd hn.symm (ne_of_head?
      (by rw [contName_head?, salaUsoName_head?]; decide))
  · rw [salaUsoLine, agendadaLine, nameOf_mkLine (colonFree_salaUsoName _ _),
      nameOf_mkLine (colonFree_agendadaName _)] at hn
    exact absurd hn.symm (ne_of_head?
      (by rw [agendadaName_head?, salaUsoName_head?]; decide))
  · rfl

theorem groupNames_turma {t sala d : Nat} {seq : List Nat}
    {t' sala' d' : Nat} {seq' : List Nat} {n : String}
    (h : n ∈ (groupLines t sala d seq).map nameOf)
    (h' : n ∈ (groupLines t' sala' d' seq').map nameOf) : t = t' := by
  rcases groupNames_mem h with ⟨p0, -, p, -, rfl⟩ | rfl | rfl <;>
    rcases groupNames_mem h' with ⟨q0, -, q, -, he⟩ | he | he
  · exact (contNameX_inj he).1
  · exact absurd he (ne_of_head?
      (by rw [contName_head?, agendadaName_head?]; decide))
  · exact absurd he (ne_of_head?
      (by rw [contName_head?, salaUsoName_head?]; decide))
  · exact absurd he.symm (ne_of_head?
      (by rw [contName_head?, agendadaName_head?]; decide))
  · exact agendadaName_inj he
  · exact absurd he (ne_of_head?
      (by rw [agendadaName_head?, salaUsoName_head?]; decide))
  · exact absurd he.symm (ne_of_head?
      (by rw [contName_head?, salaUsoName_head?]; decide))
  · exact absurd he.symm (ne_of_head?
      (by rw [agendadaName_head?, salaUsoName_head?]; decide))
  · exact (salaUsoName_inj he).2

theorem runBodyNames_nodup (input : Input) (enum : List Nat → List Nat) :
    (((runState input enum).body).map nameOf).Nodup := by
  have hInv := inv_runState input enum
  rw [hInv.bodyC, List.map_flatMap, List.flatMap_def, List.nodup_flatten]
  constructor
  · intro names hnames
    obtain ⟨pl, hpl, rfl⟩ := List.mem_map.1 hnames
    rw [plLines]
    exact groupNames_nodup (consec_nodup (hInv.plGood pl hpl).1)
  · rw [List.pairwise_map]
    refine (List.pairwise_map.1 hInv.plT).imp_of_mem ?_
    intro pl₁ pl₂ h₁ h₂ hne n hn hn2
    rw [plLines] at hn hn2
    exact hne (groupNames_turma hn hn2)

theorem restricaoBlockName {input : Input} {p : Nat} {ab : Nat × Nat}
    {l : String}
    (h : l ∈ (if ((restricaoVarsFor input ab.1 p).isEmpty &&
        (restricaoVarsFor input ab.2 p).isEmpty) = true
      then ([] : List String)
      else [mkLine (restricaoName ab.1 ab.2 p)
        (joinPlus (restricaoVarsFor input ab.1 p ++
          restricaoVarsFor input ab.2 p) ++ " <= 1")])) :
    nameOf l = restricaoName ab.1 ab.2 p := by
  split_ifs at h with hc
  · cases h
  · have he : l = mkLine (restricaoName ab.1 ab.2 p)
        (joinPlus (restricaoVarsFor input ab.1 p ++
          restricaoVarsFor input ab.2 p) ++ " <= 1") := by
      simpa using h
    rw [he, nameOf_mkLine (colonFree_restricaoName _ _ _)]

theorem restricaoLinesAt_shape {input : Input} {p : Nat} {l : String}
    (h : l ∈ restricaoLinesAt input p) :
    ∃ ab ∈ restricaoPairs, nameOf l = restricaoName ab.1 ab.2 p := by
  rw [restricaoLinesAt] at h
  obtain ⟨ab, hab, hl⟩ := List.mem_flatMap.1 h
  exact ⟨ab, hab, restricaoBlockName hl⟩

theorem restricaoNamesAt_nodup (input : Input) (p : Nat) :
    ((restricaoLinesAt input p).map nameOf).Nodup := by
  rw [restricaoLinesAt, List.map_flatMap, List.flatMap_def,
    List.nodup_flatten]
  constructor
  · intro names hnames
    obtain ⟨ab, hab, rfl⟩ := List.mem_map.1 hnames
    have hn : ((if ((restricaoVarsFor input ab.1 p).isEmpty &&
        (restricaoVarsFor input ab.2 p).isEmpty) = true
        then ([] : List String)
        else [mkLine (restricaoName ab.1 ab.2 p)
          (joinPlus (restricaoVarsFor input ab.1 p ++
            restricaoVarsFor input ab.2 p) ++ " <= 1")]).map nameOf).Nodup :=
      by split_ifs <;> simp
    exact hn
  · rw [List.pairwise_map]
    have hnd : List.Pairwise (fun ab ab' =>
        (ab : Nat × Nat) ≠ ab') restricaoPairs := by decide
    refine hnd.imp_of_mem ?_
    intro ab ab' hab hab' hne n hn hn2
    obtain ⟨la, hla, rfl⟩ := List.mem_map.1 hn
    obtain ⟨lb, hlb, hnb⟩ := List.mem_map.1 hn2
    have hsa : nameOf la = restricaoName ab.1 ab.2 p := restricaoBlockName hla
    have hsb : nameOf lb = restricaoName ab'.1 ab'.2 p :=
      restricaoBlockName hlb
    apply hne
    have heq : restricaoName ab.1 ab.2 p = restricaoName ab'.1 ab'.2 p := by
      rw [← hsa, ← hnb, hsb]
    obtain ⟨h1, h2, -⟩ := restricaoName_inj heq
    exact Prod.ext h1 h2

theorem restricaoNamesAll_nodup (input : Input) :
    (((periodosUnique input).flatMap (restricaoLinesAt input)).map
      nameOf).Nodup := by
  rw [List.map_flatMap, List.flatMap_def, List.nodup_flatten]
  constructor
  · intro names hnames
    obtain ⟨p, hp, rfl⟩ := List.mem_map.1 hnames
    exact restricaoNamesAt_nodup input p
  · rw [List.pairwise_map]
    refine List.Pairwise.imp_of_mem ?_ (dedupF_nodup input.periodos)
    intro p p' hp hp' hne n hn hn2
    obtain ⟨la, hla, rfl⟩ := List.mem_map.1 hn
    obtain ⟨lb, hlb, hnb⟩ := List.mem_map.1 hn2
    obtain ⟨ab, -, hsa⟩ := restricaoLinesAt_shape hla
    obtain ⟨ab', -, hsb⟩ := restricaoLinesAt_shape hlb
    apply hne
    have heq : restricaoName ab.1 ab.2 p = restricaoName ab'.1 ab'.2 p' := by
      rw [← hsa, ← hnb, hsb]
    exact (restricaoName_inj heq).2.2

theorem restricaoNamesAll_head (input : Input) :
    ∀ n ∈ (((periodosUnique input).flatMap (restricaoLinesAt input)).map
      nameOf), n.data.head? = some 'r' := by
  intro n hn
  obtain ⟨l, hl, rfl⟩ := List.mem_map.1 hn
  obtain ⟨p, -, hlp⟩ := List.mem_flatMap.1 hl
  obtain ⟨ab, -, hs⟩ := restricaoLinesAt_shape hlp
  rw [hs, restricaoName_head?]

theorem ordemInner_mem {input : Input} {uc : Nat} {n : String}
    (h : n ∈ ((earlyOf input uc).flatMap (fun e =>
      (lateOf input uc).map (ordemLine uc e))).map nameOf) :
    ∃ e ∈ earlyOf input uc, ∃ lt ∈ lateOf input uc,
      n = ordemName uc e lt := by
  obtain ⟨l, hl, rfl⟩ := List.mem_map.1 h
  obtain ⟨e, he, hle⟩ := List.mem_flatMap.1 hl
  obtain ⟨lt, hlt, hlo⟩ := List.mem_map.1 hle
  refine ⟨e, he, lt, hlt, ?_⟩
  rw [← hlo, ordemLine, nameOf_mkLine (colonFree_ordemName _ _ _)]

theorem ordemNames_nodup (input : Input) :
    ((ordemLines input).map nameOf).Nodup := by
  rw [ordemLines, List.map_flatMap, List.flatMap_def, List.nodup_flatten]
  constructor
  · intro names hnames
    obtain ⟨uc, huc, rfl⟩ := List.mem_map.1 hnames
    rw [List.map_flatMap, List.flatMap_def, List.nodup_flatten]
    constructor
    · intro names2 hnames2
      obtain ⟨e, he, rfl⟩ := List.mem_map.1 hnames2
      rw [List.map_map]
      refine List.Nodup.map_on ?_ ((dedupF_nodup _).filter _)
      intro x hx y hy hxy
      have hxy' : ordemName uc e x = ordemName uc e y := by
        have hx' : (nameOf ∘ ordemLine uc e) x = ordemName uc e x := by
          show nameOf (ordemLine uc e x) = _
          rw [ordemLine, nameOf_mkLine (colonFree_ordemName _ _ _)]
        have hy' : (nameOf ∘ ordemLine uc e) y = ordemName uc e y := by
          show nameOf (ordemLine uc e y) = _
          rw [ordemLine, nameOf_mkLine (colonFree_ordemName _ _ _)]
        rw [← hx', ← hy', hxy]
      exact (ordemName_inj hxy').2.2
    · rw [List.pairwise_map]
      refine List.Pairwise.imp_of_mem ?_ ((dedupF_nodup _).filter _)
      intro e e' he he' hne n hn hn2
      obtain ⟨lt, hlt, rfl⟩ := (by
        rw [List.map_map] at hn
        exact List.mem_map.1 hn)
      obtain ⟨lt', hlt', hnb⟩ := (by
        rw [List.map_map] at hn2
        exact List.mem_map.1 hn2)
      apply hne
      have heq : ordemName uc e lt = ordemName uc e' lt' := by
        have h1 : (nameOf ∘ ordemLine uc e) lt = ordemName uc e lt := by
          show nameOf (ordemLine uc e lt) = _
          rw [ordemLine, nameOf_mkLine (colonFree_ordemName _ _ _)]
        have h2 : (nameOf ∘ ordemLine uc e') lt' = ordemName uc e' lt' := by
          show nameOf (ordemLine uc e' lt') = _
          rw [ordemLine, nameOf_mkLine (colonFree_ordemName _ _ _)]
        rw [← h1, ← h2, hnb]
      exact (ordemName_inj heq).2.1
  · rw [List.pairwise_map]
    refine List.Pairwise.imp_of_mem ?_ (dedupF_nodup _)
    intro uc uc' huc huc' hne n hn hn2
    obtain ⟨e, -, lt, -, rfl⟩ := ordemInner_mem hn
    obtain ⟨e', -, lt', -, hnb⟩ := ordemInner_mem hn2
    exact hne (ordemName_inj hnb).1

theorem ordemNames_head (input : Input) :
    ∀ n ∈ (ordemLines input).map nameOf, n.data.head? = some 'o' := by
  intro n hn
  obtain ⟨l, hl, rfl⟩ := List.mem_map.1 hn
  rw [ordemLines] at hl
  obtain ⟨uc, -, hli⟩ := List.mem_flatMap.1 hl
  have : nameOf l ∈ ((earlyOf input uc).flatMap (fun e =>
      (lateOf input uc).map (ordemLine uc e))).map nameOf :=
    List.mem_map.2 ⟨l, hli, rfl⟩
  obtain ⟨e, -, lt, -, hs⟩ := ordemInner_mem this
  rw [hs, ordemName_head?]

theorem runBodyNames_head (input : Input) (enum : List Nat → List Nat) :
    ∀ n ∈ ((runState input enum).body).map nameOf,
      n.data.head? = some 'c' ∨ n.data.head? = some 't' ∨
        n.data.head? = some 's' := by
  have hInv := inv_runState input enum
  intro n hn
  obtain ⟨l, hl, rfl⟩ := List.mem_map.1 hn
  rw [hInv.bodyC] at hl
  obtain ⟨pl, hpl, hlpl⟩ := List.mem_flatMap.1 hl
  rw [plLines] at hlpl
  have : nameOf l ∈ (groupLines pl.1 pl.2.1 (turmaDuracao input pl.1)
      pl.2.2).map nameOf := List.mem_map.2 ⟨l, hlpl, rfl⟩
  rcases groupNames_mem this with ⟨p0, -, p, -, hs⟩ | hs | hs
  · exact Or.inl (by rw [hs, contName_head?])
  · exact Or.inr (Or.inl (by rw [hs, agendadaName_head?]))
  · exact Or.inr (Or.inr (by rw [hs, salaUsoName_head?]))

theorem binaryDecls_nodup (input : Input) (enum : List Nat → List Nat) :
    (binaryDecls input enum).Nodup := by
  have hInv := inv_runState input enum
  rw [binaryDecls]
  refine List.Nodup.append ?_ ?_ ?_
  · exact (List.perm_insertionSort strLe _).nodup_iff.mpr hInv.varsN
  · exact (List.perm_insertionSort strLe _).nodup_iff.mpr (dedupF_nodup _)
  · intro v hv hv2
    have h1 : v ∈ (runState input enum).vars :=
      (List.perm_insertionSort strLe _).mem_iff.mp hv
    have h2 : v ∈ dedupF (input.salas.map zVar) :=
      (List.perm_insertionSort strLe _).mem_iff.mp hv2
    obtain ⟨pl, -, p, -, rfl⟩ := (hInv.varsC v).1 h1
    obtain ⟨s, -, hz⟩ := List.mem_map.1 (dedupF_mem.1 h2)
    exact xVar_ne_zVar _ _ _ s hz.symm

/-- C7: in every emitted model, constraint names are pairwise distinct
(hence so are the constraint lines themselves), and the variable names of
the Binary block are pairwise distinct; in particular no identical
constraint line is ever written twice. -/
theorem claim_C7 (input : Input) (enum : List Nat → List Nat) :
    ((bodyAll input enum).map nameOf).Nodup ∧
    (bodyAll input enum).Nodup ∧
    (binaryDecls input enum).Nodup := by
  have hInv := inv_runState input enum
  have hconf1 : confLinesOf input (fun k => docConfName k.1 k.2)
      (runState input enum).docPV = [] :=
    confLinesOf_nil (fun e he => (hInv.pvDoc e he).1)
  have hconf2 : confLinesOf input (fun k => salaConfName k.1 k.2)
      (runState input enum).salaPV = [] :=
    confLinesOf_nil (fun e he => (hInv.pvSala e he).1)
  have hnames : ((bodyAll input enum).map nameOf).Nodup := by
    rw [bodyAll, hconf1, hconf2, List.append_nil, List.append_nil,
        List.map_append, List.map_append]
    refine List.Nodup.append (List.Nodup.append ?_ ?_ ?_) ?_ ?_
    · exact runBodyNames_nodup input enum
    · exact restricaoNamesAll_nodup input
    · intro n hn hn2
      have hr := restricaoNamesAll_head input n hn2
      rcases runBodyNames_head input enum n hn with h | h | h
      all_goals rw [h] at hr
      all_goals exact absurd hr (by decide)
    · exact ordemNames_nodup input
    · intro n hn hn2
      have ho := ordemNames_head input n hn2
      rcases List.mem_append.1 hn with hn' | hn'
      · rcases runBodyNames_head input enum n hn' with h | h | h
        all_goals rw [h] at ho
        all_goals exact absurd ho (by decide)
      · have hr := restricaoNamesAll_head input n hn'
        rw [hr] at ho
        exact absurd ho (by decide)
  exact ⟨hnames, List.Nodup.of_map nameOf hnames, binaryDecls_nodup input enum⟩

/-- C1 witness: the first-fit characterization applied to the basic
feasible input at its single section. -/
theorem claim_C1_witness :
    ucSemestreOf inpA (turmaUc inpA 1) = some 1 ∧
    (List.Sorted (· < ·) (turmaSet inpA) ∧
      processTurma inpA (fun l => l) {} 1 =
        match List.find? (survives inpA {} 1 1)
            (candidates inpA (fun l => l) 1) with
        | none => ({} : SState)
        | some c =>
          commit {} 1 c.1 (turmaDocente inpA 1) (turmaDuracao inpA 1) c.2) :=
  ⟨by decide, claim_C1 inpA (fun l => l) {} 1 1 (by decide)⟩

/-- C3 witness: the emitted continuity, allocation and room-usage lines of
the one placement of the basic feasible input. -/
theorem claim_C3_witness :
    (1, 10, [1, 2]) ∈ (runState inpA (fun l => l)).placements ∧
    ∃ v0 rest,
      [1, 2].map (fun p => xVar 1 10 p) = v0 :: rest ∧
      (∀ v ∈ rest, contLine v0 v ∈ bodyAll inpA (fun l => l)) ∧
      agendadaLine 1 (turmaDuracao inpA 1) (v0 :: rest) ∈
        bodyAll inpA (fun l => l) ∧
      salaUsoLine 10 1 (turmaDuracao inpA 1) (v0 :: rest) ∈
        bodyAll inpA (fun l => l) :=
  ⟨by decide, claim_C3 inpA (fun l => l) (1, 10, [1, 2]) (by decide)
    (by decide)⟩

end Horarios
